import Mathlib

/-!
# Sudoku solver (`src/business/sudoku.go`): embedding and verified properties

The Go package keeps a board as a slice of pointers to cells and solves it by
repeated sweeps that fill every cell with exactly one legal digit left
("naked single").  This file embeds the data model, the three constraint
queries and `Solve` as executable Lean definitions, and proves properties of
them.

Modelling conventions
* `uint` values are `Nat`; `int` values are `Int`.  The conversion `int(u)` of a
  `uint` is `toInt` (64-bit two's complement), the increment of the package
  variable `iterationsSinceLastSolve` wraps with `wrapInt`.
* `Board.Fields` is a slice of pointers to distinct cells.  It is modelled as a
  list of cell values; the in-place update of the visited cell is the
  replacement of that list element.  (Aliased or nil pointers are outside the
  model.)
* The package variable `solvedNumberCount` counts cells of one sweep and stays
  far below the range of `int`; it is not wrapped.
* `log.Fatal` ends the process; it is the outcome `Outcome.fatal`.
* `Solve` loops until it returns; `SolveFuel` runs at most a given number of
  sweeps and yields `none` when that number does not suffice.
* `GenerateBoardFromFile` gets the file as the error of `os.Open` or the lines
  the scanner yields; `readLines` gives these for the lines of a file, by the
  rules of `bufio.Scanner`; `main` is `mainFuel`, with `PrintBoard` as its
  outcome.
* The text of a `strconv.ParseInt` error is that of the library (`quoteRune`
  for `strconv.Quote`); the tables of `strconv.IsPrint` above U+00FF are the
  parameter `isPrint`.
-/

namespace Sudoku

/-! ## Data model -/

/-- Go `Field`: the data of one cell. -/
structure Field where
  Row : Nat
  Column : Nat
  Number : Int
  PossibleNumbers : List Nat
deriving DecidableEq, Repr

/-- Go `Board`: the cells, in slice order. -/
structure Board where
  Fields : List Field
deriving DecidableEq, Repr

/-- Go `Box`: the rows and the columns of one 3x3 box. -/
structure Box where
  Rows : List Nat
  Cols : List Nat
deriving DecidableEq, Repr

/-- Go `boxes`: the fixed table of the nine boxes. -/
def boxes : List Box :=
  [ { Rows := [1, 2, 3], Cols := [1, 2, 3] },
    { Rows := [1, 2, 3], Cols := [4, 5, 6] },
    { Rows := [1, 2, 3], Cols := [7, 8, 9] },
    { Rows := [4, 5, 6], Cols := [1, 2, 3] },
    { Rows := [4, 5, 6], Cols := [4, 5, 6] },
    { Rows := [4, 5, 6], Cols := [7, 8, 9] },
    { Rows := [7, 8, 9], Cols := [1, 2, 3] },
    { Rows := [7, 8, 9], Cols := [4, 5, 6] },
    { Rows := [7, 8, 9], Cols := [7, 8, 9] } ]

/-- Go `maxIterationsSinceLastSolve` (a package variable that is never written). -/
def maxIterationsSinceLastSolve : Int := 100

/-- The conversion `int(u)` of a `uint` on a 64-bit target. -/
def toInt (u : Nat) : Int :=
  if u % 18446744073709551616 < 9223372036854775808 then
    ((u % 18446744073709551616 : Nat) : Int)
  else
    ((u % 18446744073709551616 : Nat) : Int) - 18446744073709551616

/-- The value of a 64-bit `int` after an arithmetic operation: two's complement wrap. -/
def wrapInt (x : Int) : Int :=
  (x + 9223372036854775808) % 18446744073709551616 - 9223372036854775808

/-- The error `Solve` returns when the stall counter passes its bound. -/
def tooManyIterations : String :=
  "too many iterations since last solve. Might be an unsolvable board"

/-- The error `GetBoxForField` returns when no box matches. -/
def boxNotFound : String := "could not find correct box for field"

/-! ## Constraint queries -/

/-- Go `contains`: is `nr` among the numbers of the slice. -/
def contains : List Nat → Int → Bool
  | [], _ => false
  | a :: rest, nr => if toInt a = nr then true else contains rest nr

/-- The loop of `HasNumberInRow` over the cells. -/
def hasNumberInRowLoop (field : Field) (number : Nat) : List Field → Bool
  | [] => false
  | f :: rest =>
    if f.Row ≠ field.Row then hasNumberInRowLoop field number rest
    else if f.Number = toInt number then true
    else hasNumberInRowLoop field number rest

/-- Go `Board.HasNumberInRow`. -/
def HasNumberInRow (board : Board) (field : Field) (number : Nat) : Bool :=
  hasNumberInRowLoop field number board.Fields

/-- The loop of `HasNumberInColumn` over the cells. -/
def hasNumberInColumnLoop (field : Field) (number : Nat) : List Field → Bool
  | [] => false
  | f :: rest =>
    if f.Column ≠ field.Column then hasNumberInColumnLoop field number rest
    else if f.Number = toInt number then true
    else hasNumberInColumnLoop field number rest

/-- Go `Board.HasNumberInColumn`. -/
def HasNumberInColumn (board : Board) (field : Field) (number : Nat) : Bool :=
  hasNumberInColumnLoop field number board.Fields

/-- The loop of `GetBoxForField` over a table of boxes. -/
def getBoxLoop (field : Field) : List Box → Except String Box
  | [] => .error boxNotFound
  | box :: rest =>
    if contains box.Cols (toInt field.Column) && contains box.Rows (toInt field.Row) then .ok box
    else getBoxLoop field rest

/-- Go `GetBoxForField`. -/
def GetBoxForField (field : Field) : Except String Box :=
  getBoxLoop field boxes

/-- The loop of `HasNumberInBox` over the cells, for the box found. -/
def hasNumberInBoxLoop (box : Box) (number : Nat) : List Field → Bool
  | [] => false
  | f :: rest =>
    if !contains box.Rows (toInt f.Row) || !contains box.Cols (toInt f.Column) then
      hasNumberInBoxLoop box number rest
    else if f.Number = toInt number then true
    else hasNumberInBoxLoop box number rest

/-- Go `Board.HasNumberInBox`; `none` is the `log.Fatal` exit taken when no box is found. -/
def HasNumberInBox (board : Board) (field : Field) (number : Nat) : Option Bool :=
  match GetBoxForField field with
  | .error _ => none
  | .ok box => some (hasNumberInBoxLoop box number board.Fields)

/-! ## Solve -/

/-- The loop `for i := 1; i <= 9; i++` of `Solve` from digit `i` on, with `n` digits to go:
the candidates found so far are `acc`; `none` is the `log.Fatal` exit of `HasNumberInBox`.
The three queries read `Row`, `Column` and `Number` only, so the board they see is the
board of the visit, whatever `PossibleNumbers` holds meanwhile. -/
def possibleNumbersLoop (board : Board) (field : Field) : Nat → Nat → List Nat → Option (List Nat)
  | _, 0, acc => some acc
  | i, n + 1, acc =>
    match HasNumberInBox board field i with
    | none => none
    | some inBox =>
      if !inBox && !HasNumberInColumn board field i && !HasNumberInRow board field i then
        possibleNumbersLoop board field (i + 1) n (acc ++ [i])
      else
        possibleNumbersLoop board field (i + 1) n acc

/-- The candidate list `Solve` builds for a cell: `field.PossibleNumbers` after the loop
over the digits 1 to 9. -/
def possibleNumbers (board : Board) (field : Field) : Option (List Nat) :=
  possibleNumbersLoop board field 1 9 []

/-- The package variables `Solve` reads and writes. -/
structure Globals where
  iterationsSinceLastSolve : Int
  solvedNumberCount : Int
deriving DecidableEq, Repr

/-- How a call of `Solve` ends: it returns the board with an error or without one, leaving
the package variables as given, or the process is ended by `log.Fatal`. -/
inductive Outcome where
  | returned (board : Board) (err : Option String) (globals : Globals)
  | fatal
deriving DecidableEq, Repr

/-- How one pass of the inner loop of `Solve` ends: at the end of the slice (the outer loop
goes on), or inside it. -/
inductive Sweep where
  | next (board : Board) (globals : Globals)
  | done (out : Outcome)
deriving DecidableEq, Repr

/-- The visited empty cell after the candidate loop and the naked-single test: with exactly
one candidate the cell takes it and its candidate list is emptied, otherwise it keeps the
candidate list. -/
def assign (field : Field) (cands : List Nat) : Field :=
  match cands with
  | [n] => { field with Number := toInt n, PossibleNumbers := [] }
  | _ => { field with PossibleNumbers := cands }

/-- The stall counter after the visit of an empty cell: incremented, then reset when the
cell had exactly one candidate. -/
def stallAfter (iterations : Int) (cands : List Nat) : Int :=
  match cands with
  | [_] => 0
  | _ => wrapInt (iterations + 1)

/-- The inner loop `for _, field := range board.Fields` of `Solve`: `visited` are the cells
already passed in this sweep (as they are now), `rest` the cells still to visit. -/
def sweep : List Field → List Field → Globals → Sweep
  | visited, [], g => .next ⟨visited⟩ g
  | visited, field :: rest, g =>
    if field.Number ≠ 0 then
      if g.solvedNumberCount + 1 = 81 then
        .done (.returned ⟨visited ++ field :: rest⟩ none
          { g with solvedNumberCount := g.solvedNumberCount + 1 })
      else
        sweep (visited ++ [field]) rest { g with solvedNumberCount := g.solvedNumberCount + 1 }
    else
      match possibleNumbers ⟨visited ++ field :: rest⟩ field with
      | none => .done .fatal
      | some cands =>
        let field1 := assign field cands
        let g1 := { g with iterationsSinceLastSolve := stallAfter g.iterationsSinceLastSolve cands }
        if g1.iterationsSinceLastSolve > maxIterationsSinceLastSolve then
          .done (.returned ⟨visited ++ field1 :: rest⟩ (some tooManyIterations) g1)
        else
          sweep (visited ++ [field1]) rest g1

/-- Go `Solve`, run for at most `fuel` sweeps from the package variables `g`: `none` when
`fuel` sweeps do not reach a return. -/
def SolveFuel : Nat → Globals → Board → Option Outcome
  | 0, _, _ => none
  | fuel + 1, g, board =>
    match sweep [] board.Fields { g with solvedNumberCount := 0 } with
    | .done out => some out
    | .next board1 g1 => SolveFuel fuel g1 board1

/-- Row-major board of the given numbers: the cell at index `i` has row `i / 9 + 1` and
column `i % 9 + 1`, as `GenerateBoardFromFile` lays the cells out. -/
def boardOfNumbers (numbers : List Int) : Board :=
  ⟨(List.range numbers.length).zipWith
    (fun i n => { Row := i / 9 + 1, Column := i % 9 + 1, Number := n, PossibleNumbers := [] })
    numbers⟩

/-! ## Predicates used to state the properties -/

/-- Is the cell inside the box: the test `HasNumberInBox` makes for every cell. -/
def inBox (box : Box) (f : Field) : Bool :=
  contains box.Rows (toInt f.Row) && contains box.Cols (toInt f.Column)

/-- Row and column of the cell are both in 1..9. -/
def InGrid (f : Field) : Prop :=
  (1 ≤ f.Row ∧ f.Row ≤ 9) ∧ (1 ≤ f.Column ∧ f.Column ≤ 9)

instance (f : Field) : Decidable (InGrid f) := by unfold InGrid; infer_instance

/-- The test of the candidate loop for digit `k`, given the box of the cell. -/
def fits (board : Board) (field : Field) (box : Box) (k : Nat) : Bool :=
  !hasNumberInBoxLoop box k board.Fields && !HasNumberInColumn board field k &&
    !HasNumberInRow board field k

deriving instance DecidableEq for Except

/-- Number of empty cells. -/
def empties (l : List Field) : Nat := l.countP (fun f => f.Number = 0)

/-- Number of further fruitless visits the stall counter allows before it passes the bound
(counted through the wrap of the 64-bit counter). -/
def stallLeft (c : Int) : Nat := ((100 - c) % 18446744073709551616).toNat

/-- The box with box-row `i` and box-column `j` (both counted from 0): rows `3i+1..3i+3`,
columns `3j+1..3j+3`. -/
def boxAt (i j : Nat) : Box :=
  { Rows := [3 * i + 1, 3 * i + 2, 3 * i + 3], Cols := [3 * j + 1, 3 * j + 2, 3 * j + 3] }

/-- Cell `g` lies in the grid and in the same 3x3 box as cell `f`. -/
def SameBox (g f : Field) : Prop :=
  InGrid g ∧ (g.Row - 1) / 3 = (f.Row - 1) / 3 ∧ (g.Column - 1) / 3 = (f.Column - 1) / 3

instance (g f : Field) : Decidable (SameBox g f) := by unfold SameBox; infer_instance

/-- Digit `d` is a candidate for cell `f`: it is one of 1..9 and no cell of the board in the
row, in the column or in the box of `f` holds it. -/
def IsCandidate (board : Board) (f : Field) (d : Nat) : Prop :=
  (1 ≤ d ∧ d ≤ 9) ∧
    ∀ g ∈ board.Fields, (g.Row = f.Row ∨ g.Column = f.Column ∨ SameBox g f) → g.Number ≠ (d : Int)

instance (board : Board) (f : Field) (d : Nat) : Decidable (IsCandidate board f d) := by
  unfold IsCandidate; infer_instance

/-- The candidate digits of cell `f`, in ascending order. -/
def candidates (board : Board) (f : Field) : List Nat :=
  (List.range' 1 9).filter (fun d => decide (IsCandidate board f d))

/-- What the constraint queries read of a cell. -/
def key (f : Field) : Nat × Nat × Int := (f.Row, f.Column, f.Number)

/-- The cells hold `uint` rows and columns. -/
def UintCoords (board : Board) : Prop :=
  ∀ g ∈ board.Fields, g.Row < 18446744073709551616 ∧ g.Column < 18446744073709551616

/-- Number of filled cells. -/
def filled (l : List Field) : Nat := l.countP (fun f => f.Number ≠ 0)

/-- Row and column of a cell. -/
def coord (f : Field) : Nat × Nat := (f.Row, f.Column)

/-- The 81 places of the grid, row by row. -/
def gridCoords : List (Nat × Nat) := List.product (List.range' 1 9) (List.range' 1 9)

/-- A board of the data model: 81 cells, rows and columns in 1..9, one cell per place. -/
def WellShaped (board : Board) : Prop :=
  board.Fields.length = 81 ∧ (∀ f ∈ board.Fields, InGrid f) ∧
    (board.Fields.map coord).Nodup

instance (board : Board) : Decidable (WellShaped board) := by unfold WellShaped; infer_instance

/-- A complete valid Sudoku grid, given as the digit at each place: every row, every column
and every box of the table `boxes` holds each digit 1..9 exactly once. -/
def IsSolution (S : Nat → Nat → Int) : Prop :=
  (∀ r ∈ List.range' 1 9, ∀ d ∈ List.range' 1 9,
      (List.range' 1 9).countP (fun c => S r c = (d : Int)) = 1) ∧
    (∀ c ∈ List.range' 1 9, ∀ d ∈ List.range' 1 9,
      (List.range' 1 9).countP (fun r => S r c = (d : Int)) = 1) ∧
    (∀ box ∈ boxes, ∀ d ∈ List.range' 1 9,
      (List.product box.Rows box.Cols).countP (fun p => S p.1 p.2 = (d : Int)) = 1)

instance (S : Nat → Nat → Int) : Decidable (IsSolution S) := by unfold IsSolution; infer_instance

/-- How many cells of row `r` hold digit `d`. -/
def rowCount (board : Board) (r d : Nat) : Nat :=
  board.Fields.countP (fun f => f.Row = r ∧ f.Number = (d : Int))

/-- How many cells of column `c` hold digit `d`. -/
def columnCount (board : Board) (c d : Nat) : Nat :=
  board.Fields.countP (fun f => f.Column = c ∧ f.Number = (d : Int))

/-- How many cells of the box hold digit `d`. -/
def boxCount (board : Board) (box : Box) (d : Nat) : Nat :=
  board.Fields.countP (fun f => (f.Row ∈ box.Rows ∧ f.Column ∈ box.Cols) ∧ f.Number = (d : Int))

/-- No digit 1..9 occurs twice in a row, in a column or in a box. -/
def Consistent (board : Board) : Prop :=
  ∀ d ∈ List.range' 1 9,
    (∀ r ∈ List.range' 1 9, rowCount board r d ≤ 1) ∧
    (∀ c ∈ List.range' 1 9, columnCount board c d ≤ 1) ∧
    (∀ box ∈ boxes, boxCount board box d ≤ 1)

instance (board : Board) : Decidable (Consistent board) := by unfold Consistent; infer_instance

/-- Every row, every column and every box holds each digit 1..9 exactly once. -/
def ValidGrid (board : Board) : Prop :=
  ∀ d ∈ List.range' 1 9,
    (∀ r ∈ List.range' 1 9, rowCount board r d = 1) ∧
    (∀ c ∈ List.range' 1 9, columnCount board c d = 1) ∧
    (∀ box ∈ boxes, boxCount board box d = 1)

instance (board : Board) : Decidable (ValidGrid board) := by unfold ValidGrid; infer_instance

/-- The Number of every cell is in 0..9. -/
def NumbersInRange (board : Board) : Prop :=
  ∀ f ∈ board.Fields, 0 ≤ f.Number ∧ f.Number ≤ 9

instance (board : Board) : Decidable (NumbersInRange board) := by
  unfold NumbersInRange; infer_instance

/-- A complete valid grid, row by row. -/
def solvedNumbers : List Int :=
  [1, 2, 3, 4, 5, 6, 7, 8, 9,
   4, 5, 6, 7, 8, 9, 1, 2, 3,
   7, 8, 9, 1, 2, 3, 4, 5, 6,
   2, 3, 4, 5, 6, 7, 8, 9, 1,
   5, 6, 7, 8, 9, 1, 2, 3, 4,
   8, 9, 1, 2, 3, 4, 5, 6, 7,
   3, 4, 5, 6, 7, 8, 9, 1, 2,
   6, 7, 8, 9, 1, 2, 3, 4, 5,
   9, 1, 2, 3, 4, 5, 6, 7, 8]

/-- The grid `solvedNumbers` with the cells (1,1), (1,2) and (4,1) emptied: the first empty
cell has the two candidates 1 and 2 until the other two are filled. -/
def puzzleNumbers : List Int :=
  [0, 0, 3, 4, 5, 6, 7, 8, 9,
   4, 5, 6, 7, 8, 9, 1, 2, 3,
   7, 8, 9, 1, 2, 3, 4, 5, 6,
   0, 3, 4, 5, 6, 7, 8, 9, 1,
   5, 6, 7, 8, 9, 1, 2, 3, 4,
   8, 9, 1, 2, 3, 4, 5, 6, 7,
   3, 4, 5, 6, 7, 8, 9, 1, 2,
   6, 7, 8, 9, 1, 2, 3, 4, 5,
   9, 1, 2, 3, 4, 5, 6, 7, 8]

/-- The grid `solvedNumbers` with cell (1,1) emptied and a second 1 put into cell (1,2): the
empty cell has no candidate, so no visit ever fills it. -/
def deadNumbers : List Int :=
  [0, 1, 3, 4, 5, 6, 7, 8, 9,
   4, 5, 6, 7, 8, 9, 1, 2, 3,
   7, 8, 9, 1, 2, 3, 4, 5, 6,
   2, 3, 4, 5, 6, 7, 8, 9, 1,
   5, 6, 7, 8, 9, 1, 2, 3, 4,
   8, 9, 1, 2, 3, 4, 5, 6, 7,
   3, 4, 5, 6, 7, 8, 9, 1, 2,
   6, 7, 8, 9, 1, 2, 3, 4, 5,
   9, 1, 2, 3, 4, 5, 6, 7, 8]

/-- The digit of the grid `solvedNumbers` at row `r` and column `c`. -/
def solvedDigit (r c : Nat) : Int :=
  (((3 * ((r - 1) % 3) + (r - 1) / 3 + (c - 1)) % 9 + 1 : Nat) : Int)

/-- Numbers, error and stall counter of a returned outcome. -/
def summary : Option Outcome → Option (List Int × Option String × Int)
  | some (.returned b e g) =>
    some (b.Fields.map (fun f => f.Number), e, g.iterationsSinceLastSolve)
  | _ => none

/-- The board of 81 cells that all hold 1. -/
def onesBoard : Board := boardOfNumbers (List.replicate 81 1)

/-- The board of 81 empty cells. -/
def emptyBoard : Board := boardOfNumbers (List.replicate 81 0)

/-- The grid `solvedNumbers` with the 9 in cell (1,9) taken out. -/
def holeNumbers : List Int :=
  [1, 2, 3, 4, 5, 6, 7, 8, 0,
   4, 5, 6, 7, 8, 9, 1, 2, 3,
   7, 8, 9, 1, 2, 3, 4, 5, 6,
   2, 3, 4, 5, 6, 7, 8, 9, 1,
   5, 6, 7, 8, 9, 1, 2, 3, 4,
   8, 9, 1, 2, 3, 4, 5, 6, 7,
   3, 4, 5, 6, 7, 8, 9, 1, 2,
   6, 7, 8, 9, 1, 2, 3, 4, 5,
   9, 1, 2, 3, 4, 5, 6, 7, 8]

/-- The cells of the board of `holeNumbers` before its empty cell. -/
def holePre : List Field := (boardOfNumbers holeNumbers).Fields.take 8

/-- The cells of the board of `holeNumbers` after its empty cell. -/
def holePost : List Field := (boardOfNumbers holeNumbers).Fields.drop 9

/-- The empty cell of the board of `holeNumbers`. -/
def holeField : Field := { Row := 1, Column := 9, Number := 0, PossibleNumbers := [] }

/-- The index computation of the box table: entry `3 * ((r - 1) / 3) + (c - 1) / 3` of
`boxes` for row `r` and column `c`. -/
def boxByIndex (r c : Nat) : Option Box :=
  boxes[3 * ((r - 1) / 3) + (c - 1) / 3]?

/-! ## Board construction and `main` -/

/-- The loop variables of `GenerateBoardFromFile`: the board built so far, `row` and `col`.
(`row` and `col` are `uint`; `col` stays below 11 and `row` grows by one per nine cells, so
neither wraps.) -/
structure GenState where
  board : Board
  row : Nat
  col : Nat
deriving DecidableEq, Repr

/-- The hexadecimal digits of `n` in lower case, filled with zeros on the left to `width`
digits: the digits `strconv.Quote` writes after `\x`, `\u` and `\U`. -/
def hexDigits (width n : Nat) : String :=
  String.mk (List.replicate (width - (Nat.toDigits 16 n).length) (Char.ofNat 48) ++
    Nat.toDigits 16 n)

/-- Go `strconv.IsPrint`: decided by the rule of the library for the runes up to U+00FF
(space to `~`, and `¡` to `ÿ` without the soft hyphen U+00AD); above U+00FF the library
looks the rune up in its tables, which are no part of this repository and are the
parameter `isPrint`. -/
def goIsPrint (isPrint : Char → Bool) (r : Char) : Bool :=
  if r.toNat ≤ 255 then
    if 32 ≤ r.toNat ∧ r.toNat ≤ 126 then true
    else if 161 ≤ r.toNat ∧ r.toNat ≤ 255 then r.toNat != 173
    else false
  else isPrint r

/-- What `strconv.Quote` writes between the double quotes for the one-rune string
`string(r)`: the double quote and the backslash after a backslash, a printable rune as it
is, the control characters with a short escape as `\a`, `\b`, `\f`, `\n`, `\r`, `\t`,
`\v`, every other rune below the space and U+007F as `\x` and two hexadecimal digits, and
the remaining runes as `\u` and four or `\U` and eight hexadecimal digits. -/
def quoteRune (isPrint : Char → Bool) (r : Char) : String :=
  if r.toNat = 34 ∨ r.toNat = 92 then String.mk [Char.ofNat 92, r]
  else if goIsPrint isPrint r then String.singleton r
  else if r.toNat = 7 then String.mk [Char.ofNat 92, Char.ofNat 97]
  else if r.toNat = 8 then String.mk [Char.ofNat 92, Char.ofNat 98]
  else if r.toNat = 12 then String.mk [Char.ofNat 92, Char.ofNat 102]
  else if r.toNat = 10 then String.mk [Char.ofNat 92, Char.ofNat 110]
  else if r.toNat = 13 then String.mk [Char.ofNat 92, Char.ofNat 114]
  else if r.toNat = 9 then String.mk [Char.ofNat 92, Char.ofNat 116]
  else if r.toNat = 11 then String.mk [Char.ofNat 92, Char.ofNat 118]
  else if r.toNat < 32 ∨ r.toNat = 127 then
    String.mk [Char.ofNat 92, Char.ofNat 120] ++ hexDigits 2 r.toNat
  else if r.toNat < 65536 then String.mk [Char.ofNat 92, Char.ofNat 117] ++ hexDigits 4 r.toNat
  else String.mk [Char.ofNat 92, Char.ofNat 85] ++ hexDigits 8 r.toNat

/-- The text of the error of `strconv.ParseInt` for the one-rune string `string(number)`
that is not a number: `strconv.ParseInt: parsing`, the string quoted by `strconv.Quote`,
and `invalid syntax`. -/
def parseError (isPrint : Char → Bool) (number : Char) : String :=
  "strconv.ParseInt: parsing " ++ String.singleton (Char.ofNat 34) ++ quoteRune isPrint number ++
    String.singleton (Char.ofNat 34) ++ ": invalid syntax"

/-- The call `strconv.ParseInt(string(number), 10, 0)` for one character: the value of a
decimal digit `0`..`9`, an error for every other character (a sign alone is no number). -/
def parseInt (isPrint : Char → Bool) (number : Char) : Except String Int :=
  if number.isDigit then .ok ((number.toNat : Int) - 48)
  else .error (parseError isPrint number)

/-- The error of `GenerateBoardFromFile` for a line that is not 9 bytes long. -/
def lineError (line : String) : String := "line is not 9. Instead got " ++ line

/-- The error of `GenerateBoardFromFile` for a board that has not 81 cells. -/
def wrongFieldCount : String := "wrong field count"

/-- The loop `for _, number := range line` of `GenerateBoardFromFile` over the characters of
one line; with an error it stops and hands back the state reached. -/
def lineLoop (isPrint : Char → Bool) : List Char → GenState → GenState × Option String
  | [], st => (st, none)
  | number :: rest, st =>
    let col1 := st.col + 1
    let row2 := if col1 > 9 then st.row + 1 else st.row
    let col2 := if col1 > 9 then 1 else col1
    match parseInt isPrint number with
    | .error err => ({ st with row := row2, col := col2 }, some err)
    | .ok nr =>
      lineLoop isPrint rest
        { board := ⟨st.board.Fields ++
            [{ Row := row2, Column := col2, Number := nr, PossibleNumbers := [] }]⟩,
          row := row2, col := col2 }

/-- The loop `for scanner.Scan()` of `GenerateBoardFromFile` over the lines the scanner
yields; `len(line)` is the length of the line in bytes. -/
def scanLoop (isPrint : Char → Bool) : List String → GenState → GenState × Option String
  | [], st => (st, none)
  | line :: rest, st =>
    if line.utf8ByteSize ≠ 9 then (st, some (lineError line))
    else
      match lineLoop isPrint line.data st with
      | (st1, some err) => (st1, some err)
      | (st1, none) => scanLoop isPrint rest st1

/-- Go `GenerateBoardFromFile`.  The file system is the argument: the error of `os.Open`, or
the lines `bufio.Scanner` yields from the opened file (valid UTF-8; a line with invalid bytes
fails in `strconv.ParseInt` like any other line with a character that is no digit).
`isPrint` is the table of `strconv.IsPrint` that the text of a `ParseInt` error depends
on. -/
def GenerateBoardFromFile (isPrint : Char → Bool) (file : Except String (List String)) :
    Board × Option String :=
  match file with
  | .error err => (⟨[]⟩, some err)
  | .ok lines =>
    match scanLoop isPrint lines { board := ⟨[]⟩, row := 1, col := 0 } with
    | (st, some err) => (st.board, some err)
    | (st, none) =>
      if st.board.Fields.length ≠ 81 then (st.board, some wrongFieldCount)
      else (st.board, none)

/-- How the program ends: with `log.Fatal` and its message, or after `PrintBoard` of the
solved board. -/
inductive MainOutcome where
  | fatal (msg : String)
  | printed (board : Board)
deriving DecidableEq, Repr

/-- Go `main` for the given file, with at most `fuel` sweeps of `Solve`: the board is
generated, then solved from the initial values of the package variables, then printed; an
error of either step ends the program with `log.Fatal`. -/
def mainFuel (isPrint : Char → Bool) (fuel : Nat) (file : Except String (List String)) :
    Option MainOutcome :=
  match GenerateBoardFromFile isPrint file with
  | (_, some err) => some (.fatal err)
  | (board, none) =>
    match SolveFuel fuel { iterationsSinceLastSolve := 0, solvedNumberCount := 0 } board with
    | none => none
    | some .fatal => some (.fatal boxNotFound)
    | some (.returned _ (some err) _) => some (.fatal err)
    | some (.returned board1 none _) => some (.printed board1)

/-- The cells `GenerateBoardFromFile` makes of the characters `chars` when `n` cells are
already on the board: row-major places, the digit of the character as Number. -/
def cellsFrom : Nat → List Char → List Field
  | _, [] => []
  | n, c :: rest =>
    { Row := n / 9 + 1, Column := n % 9 + 1, Number := (c.toNat : Int) - 48,
      PossibleNumbers := [] } :: cellsFrom (n + 1) rest

/-- The values of `row` and `col` after `n` cells. -/
def genPos (n : Nat) : Nat × Nat :=
  if n = 0 then (1, 0) else ((n - 1) / 9 + 1, (n - 1) % 9 + 1)

/-- The nine lines of the file of the board of `puzzleNumbers`. -/
def puzzleLines : List String :=
  ["003456789", "456789123", "789123456", "034567891", "567891234", "891234567",
   "345678912", "678912345", "912345678"]

/-- The empty cell `f` has not exactly one candidate digit on the board of cells `l`. -/
def Stuck (l : List Field) (f : Field) : Prop := (candidates ⟨l⟩ f).length ≠ 1

/-- The last `c` visits of empty cells found no naked single, and the board has not changed
since: every empty cell among the last `c` empty cells visited, in this sweep (`visited`) or
at the end of the sweep before (`rest`), has not exactly one candidate. -/
def Covered (visited rest : List Field) (c : Int) : Prop :=
  (∀ pre f post, visited = pre ++ f :: post → f.Number = 0 → (empties post : Int) < c →
    Stuck (visited ++ rest) f) ∧
  (∀ pre f post, rest = pre ++ f :: post → f.Number = 0 →
    ((empties post + empties visited : Nat) : Int) < c → Stuck (visited ++ rest) f)

/-- What `Solve` may do to a cell: Row and Column stay; a cell that was filled stays as it
was in every field; an empty cell stays empty or takes a digit 1..9. -/
def Framed (f f1 : Field) : Prop :=
  f1.Row = f.Row ∧ f1.Column = f.Column ∧ (f.Number ≠ 0 → f1 = f) ∧
    (f.Number = 0 → f1.Number = 0 ∨ (1 ≤ f1.Number ∧ f1.Number ≤ 9))

instance (f f1 : Field) : Decidable (Framed f f1) := by unfold Framed; infer_instance

/-! ## The scanner -/

/-- Go `bufio.MaxScanTokenSize`, the size the buffer of a `bufio.Scanner` grows to. -/
def maxScanTokenSize : Nat := 65536

/-- Go `dropCR` of `bufio.ScanLines`: a line without its one trailing carriage return. -/
def dropCR (line : String) : String :=
  if line.data.getLast? = some (Char.ofNat 13) then String.mk line.data.dropLast else line

/-- The lines `scanner.Scan()` and `scanner.Text()` yield, one after the other, from the
lines of a file (the text between its newlines): each line without its trailing carriage
return, up to the first line of `maxScanTokenSize` bytes or more.  Such a line does not fit
the buffer: `Scan` returns false as at the end of the file and keeps the error
`bufio.ErrTooLong` for `scanner.Err()`, which `GenerateBoardFromFile` never reads. -/
def scannerLines : List String → List String
  | [] => []
  | raw :: rest =>
    if maxScanTokenSize ≤ raw.utf8ByteSize then [] else dropCR raw :: scannerLines rest

/-- What `GenerateBoardFromFile` gets to see of a file: the error of `os.Open`, or the lines
the scanner yields from the lines of the file. -/
def readLines (file : Except String (List String)) : Except String (List String) :=
  match file with
  | .error err => .error err
  | .ok raw => .ok (scannerLines raw)

/-- A line of 70000 digits `1`. -/
def longLine : String := String.mk (List.replicate 70000 (Char.ofNat 49))

/-- The nine lines of `puzzleLines` followed by a tenth line of 70000 digits. -/
def longFile : List String := puzzleLines ++ [longLine]

/-! ## Theorems -/

/-! ## Facts about the conversions and the queries -/

theorem toInt_of_lt (u : Nat) (h : u < 9223372036854775808) : toInt u = (u : Int) := by
  unfold toInt
  have h1 : u % 18446744073709551616 = u := Nat.mod_eq_of_lt (by omega)
  rw [h1, if_pos h]

theorem toInt_eq_digit (u d : Nat) (hu : u < 18446744073709551616) (hd : d < 9223372036854775808) :
    toInt u = (d : Int) ↔ u = d := by
  unfold toInt
  have h1 : u % 18446744073709551616 = u := Nat.mod_eq_of_lt hu
  rw [h1]
  split <;> omega

theorem contains_iff (slice : List Nat) (nr : Int) :
    contains slice nr = true ↔ ∃ a ∈ slice, toInt a = nr := by
  induction slice with
  | nil => simp [contains]
  | cons a rest ih =>
    unfold contains
    by_cases h : toInt a = nr
    · simp [h]
    · simp [h, ih]

theorem hasNumberInRowLoop_iff (field : Field) (number : Nat) (l : List Field) :
    hasNumberInRowLoop field number l = true ↔
      ∃ f ∈ l, f.Row = field.Row ∧ f.Number = toInt number := by
  induction l with
  | nil => simp [hasNumberInRowLoop]
  | cons f rest ih =>
    unfold hasNumberInRowLoop
    by_cases h1 : f.Row = field.Row
    · by_cases h2 : f.Number = toInt number
      · simp [h1, h2]
      · simp [h1, h2, ih]
    · simp [h1, ih]

theorem hasNumberInColumnLoop_iff (field : Field) (number : Nat) (l : List Field) :
    hasNumberInColumnLoop field number l = true ↔
      ∃ f ∈ l, f.Column = field.Column ∧ f.Number = toInt number := by
  induction l with
  | nil => simp [hasNumberInColumnLoop]
  | cons f rest ih =>
    unfold hasNumberInColumnLoop
    by_cases h1 : f.Column = field.Column
    · by_cases h2 : f.Number = toInt number
      · simp [h1, h2]
      · simp [h1, h2, ih]
    · simp [h1, ih]

theorem hasNumberInBoxLoop_iff (box : Box) (number : Nat) (l : List Field) :
    hasNumberInBoxLoop box number l = true ↔
      ∃ f ∈ l, inBox box f = true ∧ f.Number = toInt number := by
  induction l with
  | nil => simp [hasNumberInBoxLoop]
  | cons f rest ih =>
    unfold hasNumberInBoxLoop
    by_cases h1 : inBox box f = true
    · have h1' := h1
      simp only [inBox, Bool.and_eq_true] at h1'
      by_cases h2 : f.Number = toInt number
      · simp [h1, h2, h1'.1, h1'.2]
      · simp [h1, h2, h1'.1, h1'.2, ih]
    · have h1' := h1
      simp only [inBox, Bool.and_eq_true, not_and_or, Bool.not_eq_true] at h1'
      have hc : (!contains box.Rows (toInt f.Row) || !contains box.Cols (toInt f.Column)) = true := by
        rcases h1' with h | h <;> simp [h]
      simp [hc, h1, ih]

set_option maxRecDepth 100000 in
theorem getBox_table : ∀ r ∈ List.range' 1 9, ∀ c ∈ List.range' 1 9, ∃ box ∈ boxes,
    GetBoxForField ⟨r, c, 0, []⟩ = .ok box ∧ inBox box ⟨r, c, 0, []⟩ = true ∧
      ∀ box1 ∈ boxes, inBox box1 ⟨r, c, 0, []⟩ = true → box1 = box := by
  decide

theorem GetBoxForField_ok (field : Field) (h : InGrid field) :
    ∃ box, GetBoxForField field = .ok box ∧ box ∈ boxes ∧ inBox box field = true ∧
      ∀ box1 ∈ boxes, inBox box1 field = true → box1 = box := by
  obtain ⟨⟨h1, h2⟩, h3, h4⟩ := h
  obtain ⟨box, hb, h5, h6, h7⟩ := getBox_table field.Row (List.mem_range'_1.2 (by omega))
    field.Column (List.mem_range'_1.2 (by omega))
  exact ⟨box, h5, hb, h6, h7⟩

theorem possibleNumbersLoop_eq (board : Board) (field : Field) (box : Box)
    (hbox : GetBoxForField field = .ok box) (n : Nat) :
    ∀ (i : Nat) (acc : List Nat), possibleNumbersLoop board field i n acc =
      some (acc ++ (List.range' i n).filter (fits board field box)) := by
  induction n with
  | zero => intro i acc; simp [possibleNumbersLoop]
  | succ n ih =>
    intro i acc
    simp only [possibleNumbersLoop, HasNumberInBox, hbox, List.range'_succ, List.filter_cons]
    by_cases h : fits board field box i = true
    · have h' := h
      simp only [fits] at h'
      rw [if_pos h', if_pos h, ih]
      simp
    · have h' := h
      simp only [fits] at h'
      rw [if_neg h', if_neg h, ih]

theorem possibleNumbers_eq (board : Board) (field : Field) (box : Box)
    (hbox : GetBoxForField field = .ok box) :
    possibleNumbers board field = some ((List.range' 1 9).filter (fits board field box)) := by
  simp [possibleNumbers, possibleNumbersLoop_eq board field box hbox]

/-! ## The sweep, case by case -/

theorem sweep_nil (visited : List Field) (g : Globals) :
    sweep visited [] g = .next ⟨visited⟩ g := by
  simp [sweep]

theorem sweep_filled (visited : List Field) (field : Field) (rest : List Field) (g : Globals)
    (h : field.Number ≠ 0) :
    sweep visited (field :: rest) g =
      if g.solvedNumberCount + 1 = 81 then
        .done (.returned ⟨visited ++ field :: rest⟩ none
          { g with solvedNumberCount := g.solvedNumberCount + 1 })
      else
        sweep (visited ++ [field]) rest { g with solvedNumberCount := g.solvedNumberCount + 1 } := by
  rw [sweep, if_pos h]

theorem sweep_fatal (visited : List Field) (field : Field) (rest : List Field) (g : Globals)
    (h : field.Number = 0) (hc : possibleNumbers ⟨visited ++ field :: rest⟩ field = none) :
    sweep visited (field :: rest) g = .done .fatal := by
  rw [sweep, if_neg (by simp [h])]
  simp [hc]

theorem sweep_empty (visited : List Field) (field : Field) (rest : List Field) (g : Globals)
    (cands : List Nat) (h : field.Number = 0)
    (hc : possibleNumbers ⟨visited ++ field :: rest⟩ field = some cands) :
    sweep visited (field :: rest) g =
      if stallAfter g.iterationsSinceLastSolve cands > maxIterationsSinceLastSolve then
        .done (.returned ⟨visited ++ assign field cands :: rest⟩ (some tooManyIterations)
          { g with iterationsSinceLastSolve := stallAfter g.iterationsSinceLastSolve cands })
      else
        sweep (visited ++ [assign field cands]) rest
          { g with iterationsSinceLastSolve := stallAfter g.iterationsSinceLastSolve cands } := by
  rw [sweep, if_neg (by simp [h])]
  simp [hc]

/-- What holds of the board before a sweep and is kept by every visit of an empty cell holds
of the board however the sweep ends. -/
theorem sweep_preserves (P : List Field → Prop)
    (hP : ∀ visited field rest cands, field.Number = 0 →
      possibleNumbers ⟨visited ++ field :: rest⟩ field = some cands →
      P (visited ++ field :: rest) → P (visited ++ assign field cands :: rest)) :
    ∀ (rest visited : List Field) (g : Globals), P (visited ++ rest) →
      match sweep visited rest g with
      | .next b1 _ => P b1.Fields
      | .done (.returned b1 _ _) => P b1.Fields
      | .done .fatal => True := by
  intro rest
  induction rest with
  | nil => intro visited g h; simpa [sweep_nil] using h
  | cons field rest ih =>
    intro visited g h
    by_cases hN : field.Number = 0
    · cases hc : possibleNumbers ⟨visited ++ field :: rest⟩ field with
      | none => rw [sweep_fatal _ _ _ _ hN hc]; trivial
      | some cands =>
        rw [sweep_empty _ _ _ _ _ hN hc]
        have h1 := hP visited field rest cands hN hc h
        split_ifs
        · exact h1
        · exact ih _ _ (by simpa using h1)
    · rw [sweep_filled _ _ _ _ hN]
      split_ifs
      · exact h
      · exact ih _ _ (by simpa using h)

theorem SolveFuel_preserves (P : List Field → Prop)
    (hP : ∀ visited field rest cands, field.Number = 0 →
      possibleNumbers ⟨visited ++ field :: rest⟩ field = some cands →
      P (visited ++ field :: rest) → P (visited ++ assign field cands :: rest)) :
    ∀ (fuel : Nat) (g : Globals) (board : Board), P board.Fields →
      ∀ b1 e g1, SolveFuel fuel g board = some (.returned b1 e g1) → P b1.Fields := by
  intro fuel
  induction fuel with
  | zero => intro g board _ b1 e g1 h; simp [SolveFuel] at h
  | succ fuel ih =>
    intro g board h b1 e g1 hs
    have hsw := sweep_preserves P hP board.Fields [] { g with solvedNumberCount := 0 } (by simpa using h)
    rw [SolveFuel] at hs
    cases hr : sweep [] board.Fields { g with solvedNumberCount := 0 } with
    | next b2 g2 =>
      rw [hr] at hs hsw
      exact ih g2 b2 hsw b1 e g1 hs
    | done out =>
      rw [hr] at hs hsw
      simp only [Option.some.injEq] at hs
      subst hs
      exact hsw

theorem possibleNumbers_some (board : Board) (field : Field) (cands : List Nat)
    (h : possibleNumbers board field = some cands) :
    ∃ box, GetBoxForField field = .ok box ∧
      cands = (List.range' 1 9).filter (fits board field box) := by
  cases hb : GetBoxForField field with
  | error e => simp [possibleNumbers, possibleNumbersLoop, HasNumberInBox, hb] at h
  | ok box =>
    rw [possibleNumbers_eq board field box hb] at h
    exact ⟨box, rfl, by simpa using h.symm⟩

theorem possibleNumbers_isSome (board : Board) (field : Field) (h : InGrid field) :
    ∃ cands, possibleNumbers board field = some cands := by
  obtain ⟨box, hbox, -⟩ := GetBoxForField_ok field h
  exact ⟨_, possibleNumbers_eq board field box hbox⟩

theorem possibleNumbers_digit (board : Board) (field : Field) (cands : List Nat)
    (h : possibleNumbers board field = some cands) (n : Nat) (hn : n ∈ cands) :
    1 ≤ n ∧ n ≤ 9 := by
  obtain ⟨box, -, rfl⟩ := possibleNumbers_some board field cands h
  simp only [List.mem_filter, List.mem_range'_1] at hn
  omega

theorem assign_single (field : Field) (n : Nat) :
    assign field [n] = { field with Number := toInt n, PossibleNumbers := [] } := rfl

theorem assign_not_single (field : Field) (cands : List Nat) (h : cands.length ≠ 1) :
    assign field cands = { field with PossibleNumbers := cands } := by
  match cands, h with
  | [], _ => rfl
  | [_], h => simp at h
  | _ :: _ :: _, _ => rfl

theorem stallAfter_not_single (c : Int) (cands : List Nat) (h : cands.length ≠ 1) :
    stallAfter c cands = wrapInt (c + 1) := by
  match cands, h with
  | [], _ => rfl
  | [_], h => simp at h
  | _ :: _ :: _, _ => rfl

theorem length_eq_one_cases (cands : List Nat) : (∃ n, cands = [n]) ∨ cands.length ≠ 1 := by
  match cands with
  | [] => right; simp
  | [n] => left; exact ⟨n, rfl⟩
  | _ :: _ :: _ => right; simp

theorem stallLeft_step (c : Int) (h : ¬ wrapInt (c + 1) > maxIterationsSinceLastSolve) :
    stallLeft (wrapInt (c + 1)) + 1 = stallLeft c := by
  unfold wrapInt maxIterationsSinceLastSolve at *
  unfold stallLeft
  omega

theorem stallLeft_lt (c : Int) : stallLeft c < 18446744073709551616 := by
  unfold stallLeft
  omega

theorem stallLeft_zero : stallLeft 0 = 100 := by
  unfold stallLeft
  omega

/-- C10: for every board, field and number `n` that fits a non-negative `int` (every digit
does), `HasNumberInRow` is true iff some cell of the board has the Row of the field and
Number `n`, and `HasNumberInColumn` is true iff some cell has the Column of the field and
Number `n`. -/
theorem HasNumberInRow_HasNumberInColumn_iff (board : Board) (field : Field) (n : Nat)
    (hn : n < 9223372036854775808) :
    (HasNumberInRow board field n = true ↔
        ∃ f ∈ board.Fields, f.Row = field.Row ∧ f.Number = (n : Int)) ∧
      (HasNumberInColumn board field n = true ↔
        ∃ f ∈ board.Fields, f.Column = field.Column ∧ f.Number = (n : Int)) := by
  rw [← toInt_of_lt n hn]
  exact ⟨hasNumberInRowLoop_iff field n board.Fields,
    hasNumberInColumnLoop_iff field n board.Fields⟩

theorem sweep_skip_filled (pre : List Field) :
    ∀ (visited rest : List Field) (g : Globals), (∀ f ∈ pre, f.Number ≠ 0) →
      g.solvedNumberCount + pre.length < 81 →
      sweep visited (pre ++ rest) g =
        sweep (visited ++ pre) rest
          { g with solvedNumberCount := g.solvedNumberCount + pre.length } := by
  induction pre with
  | nil => intro visited rest g _ _; simp
  | cons f pre ih =>
    intro visited rest g hf hlt
    simp only [List.length_cons, Nat.cast_add, Nat.cast_one] at hlt
    rw [List.cons_append, sweep_filled _ _ _ _ (hf f (by simp)), if_neg (by omega),
      ih _ _ _ (fun x hx => hf x (by simp [hx])) (by simp only []; omega)]
    simp only [List.append_assoc, List.singleton_append, List.length_cons, Nat.cast_add,
      Nat.cast_one]
    congr 2
    omega

theorem sweep_all_filled (rest : List Field) :
    ∀ (visited : List Field) (g : Globals), (∀ f ∈ rest, f.Number ≠ 0) →
      g.solvedNumberCount < 81 → 81 ≤ g.solvedNumberCount + rest.length →
      sweep visited rest g =
        .done (.returned ⟨visited ++ rest⟩ none { g with solvedNumberCount := 81 }) := by
  induction rest with
  | nil => intro visited g _ h1 h2; simp at h2; omega
  | cons f rest ih =>
    intro visited g hf h1 h2
    simp only [List.length_cons, Nat.cast_add, Nat.cast_one] at h2
    rw [sweep_filled _ _ _ _ (hf f (by simp))]
    by_cases h : g.solvedNumberCount + 1 = 81
    · rw [if_pos h, h]
    · rw [if_neg h, ih _ _ (fun x hx => hf x (by simp [hx])) (by simp only []; omega)
        (by simp only []; omega)]
      simp

theorem empties_eq_zero (l : List Field) : empties l = 0 ↔ ∀ f ∈ l, f.Number ≠ 0 := by
  simp [empties, List.countP_eq_zero]

theorem empties_cons (f : Field) (l : List Field) :
    empties (f :: l) = empties l + (if f.Number = 0 then 1 else 0) := by
  simp [empties, List.countP_cons]

/-- One sweep over cells of the grid never ends in `log.Fatal`, returns only with success or
with the stall error, and when it reaches the end of the board the pair (empty cells, visits
left to the stall counter) has gone down if there was an empty cell to visit. -/
theorem sweep_progress (rest : List Field) :
    ∀ (visited : List Field) (g : Globals), (∀ f ∈ rest, InGrid f) →
      (∀ b1 g1, sweep visited rest g = .next b1 g1 →
        ∃ rest1, b1.Fields = visited ++ rest1 ∧ rest1.length = rest.length ∧
          (∀ f ∈ rest1, InGrid f) ∧
          empties rest1 * 18446744073709551616 + stallLeft g1.iterationsSinceLastSolve +
              min 1 (empties rest) ≤
            empties rest * 18446744073709551616 + stallLeft g.iterationsSinceLastSolve) ∧
      (∀ b1 e g1, sweep visited rest g = .done (.returned b1 e g1) →
        e = none ∨ e = some tooManyIterations) ∧
      sweep visited rest g ≠ .done .fatal := by
  induction rest with
  | nil =>
    intro visited g _
    rw [sweep_nil]
    refine ⟨?_, by simp, by simp⟩
    intro b1 g1 h
    simp only [Sweep.next.injEq] at h
    obtain ⟨rfl, rfl⟩ := h
    exact ⟨[], by simp, rfl, by simp, by simp [empties]⟩
  | cons field rest ih =>
    intro visited g hgrid
    have hrest : ∀ f ∈ rest, InGrid f := fun f hf => hgrid f (by simp [hf])
    by_cases hN : field.Number = 0
    · obtain ⟨cands, hc⟩ := possibleNumbers_isSome ⟨visited ++ field :: rest⟩ field
        (hgrid field (by simp))
      rw [sweep_empty _ _ _ _ _ hN hc]
      by_cases hgt : stallAfter g.iterationsSinceLastSolve cands > maxIterationsSinceLastSolve
      · rw [if_pos hgt]
        refine ⟨by simp, ?_, by simp⟩
        intro b1 e g1 h
        simp only [Sweep.done.injEq, Outcome.returned.injEq] at h
        exact Or.inr h.2.1.symm
      · rw [if_neg hgt]
        obtain ⟨ih1, ih2, ih3⟩ := ih (visited ++ [assign field cands])
          { g with iterationsSinceLastSolve := stallAfter g.iterationsSinceLastSolve cands } hrest
        refine ⟨?_, ih2, ih3⟩
        intro b1 g1 h
        obtain ⟨rest1, h1, h2, h3, h4⟩ := ih1 b1 g1 h
        simp only [] at h4
        refine ⟨assign field cands :: rest1, by simp [h1], by simp [h2], ?_, ?_⟩
        · intro f hf
          rcases List.mem_cons.1 hf with rfl | hf
          · have := hgrid field (by simp)
            rcases length_eq_one_cases cands with ⟨n, rfl⟩ | hlen
            · exact this
            · rw [assign_not_single _ _ hlen]; exact this
          · exact h3 f hf
        · have hl := stallLeft_lt g.iterationsSinceLastSolve
          rw [empties_cons, empties_cons, if_pos hN]
          rcases length_eq_one_cases cands with ⟨n, rfl⟩ | hlen
          · have hn := possibleNumbers_digit _ _ _ hc n (by simp)
            have hne : (assign field [n]).Number ≠ 0 := by
              rw [assign_single]
              simp only []
              rw [toInt_of_lt n (by omega)]
              omega
            rw [if_neg hne]
            have h0 : stallAfter g.iterationsSinceLastSolve [n] = 0 := rfl
            rw [h0, stallLeft_zero] at h4
            omega
          · have he : (assign field cands).Number = 0 := by
              rw [assign_not_single _ _ hlen]; exact hN
            rw [if_pos he]
            rw [stallAfter_not_single _ _ hlen] at h4 hgt
            have := stallLeft_step _ hgt
            omega
    · rw [sweep_filled _ _ _ _ hN]
      by_cases h81 : g.solvedNumberCount + 1 = 81
      · rw [if_pos h81]
        refine ⟨by simp, ?_, by simp⟩
        intro b1 e g1 h
        simp only [Sweep.done.injEq, Outcome.returned.injEq] at h
        exact Or.inl h.2.1.symm
      · rw [if_neg h81]
        obtain ⟨ih1, ih2, ih3⟩ := ih (visited ++ [field])
          { g with solvedNumberCount := g.solvedNumberCount + 1 } hrest
        refine ⟨?_, ih2, ih3⟩
        intro b1 g1 h
        obtain ⟨rest1, h1, h2, h3, h4⟩ := ih1 b1 g1 h
        simp only [] at h4
        refine ⟨field :: rest1, by simp [h1], by simp [h2], ?_, ?_⟩
        · intro f hf
          rcases List.mem_cons.1 hf with rfl | hf
          · exact hgrid _ (by simp)
          · exact h3 f hf
        · rw [empties_cons, empties_cons, if_neg hN]
          simpa using h4

/-- On a board of 81 cells of the grid some number of sweeps brings `Solve` to a return, with
success or with the stall error. -/
theorem SolveFuel_returns (board : Board) (g : Globals) (h81 : board.Fields.length = 81)
    (hgrid : ∀ f ∈ board.Fields, InGrid f) :
    ∃ fuel b1 g1, SolveFuel fuel g board = some (.returned b1 none g1) ∨
      SolveFuel fuel g board = some (.returned b1 (some tooManyIterations) g1) := by
  suffices H : ∀ (m : Nat) (board : Board) (g : Globals), board.Fields.length = 81 →
      (∀ f ∈ board.Fields, InGrid f) →
      empties board.Fields * 18446744073709551616 + stallLeft g.iterationsSinceLastSolve ≤ m →
      ∃ fuel b1 g1, SolveFuel fuel g board = some (.returned b1 none g1) ∨
        SolveFuel fuel g board = some (.returned b1 (some tooManyIterations) g1) from
    H _ board g h81 hgrid le_rfl
  intro m
  induction m with
  | zero =>
    intro board g h81 _ hm
    have he : empties board.Fields = 0 := by omega
    have hfull := (empties_eq_zero _).1 he
    refine ⟨1, board, { g with solvedNumberCount := 81 }, Or.inl ?_⟩
    rw [SolveFuel, sweep_all_filled _ _ _ hfull (by simp) (by simp [h81])]
    simp
  | succ m ih =>
    intro board g h81 hgrid hm
    obtain ⟨p1, p2, p3⟩ := sweep_progress board.Fields [] { g with solvedNumberCount := 0 } hgrid
    cases hs : sweep [] board.Fields { g with solvedNumberCount := 0 } with
    | done out =>
      cases out with
      | fatal => exact absurd hs p3
      | returned b1 e g1 =>
        rcases p2 b1 e g1 hs with rfl | rfl
        · exact ⟨1, b1, g1, Or.inl (by rw [SolveFuel, hs])⟩
        · exact ⟨1, b1, g1, Or.inr (by rw [SolveFuel, hs])⟩
    | next b1 g1 =>
      obtain ⟨rest1, h1, h2, h3, h4⟩ := p1 b1 g1 hs
      simp only [List.nil_append] at h1 h4
      by_cases he : empties board.Fields = 0
      · have hfull := (empties_eq_zero _).1 he
        rw [sweep_all_filled _ _ _ hfull (by simp) (by simp [h81])] at hs
        simp at hs
      · have hmin : min 1 (empties board.Fields) = 1 := by omega
        rw [hmin] at h4
        obtain ⟨fuel, b2, g2, hres⟩ := ih b1 g1 (by rw [h1, h2, h81]) (by rw [h1]; exact h3)
          (by rw [h1]; omega)
        refine ⟨fuel + 1, b2, g2, ?_⟩
        rw [SolveFuel, hs]
        exact hres

theorem forall₂_replace {R : Field → Field → Prop} (visited : List Field) :
    ∀ (l0 : List Field) (x y : Field) (rest : List Field),
      List.Forall₂ R l0 (visited ++ x :: rest) → (∀ a, R a x → R a y) →
      List.Forall₂ R l0 (visited ++ y :: rest) := by
  induction visited with
  | nil =>
    intro l0 x y rest h hxy
    cases h with
    | cons hr ht => exact List.Forall₂.cons (hxy _ hr) ht
  | cons v visited ih =>
    intro l0 x y rest h hxy
    cases h with
    | cons hr ht => exact List.Forall₂.cons hr (ih _ _ _ _ ht hxy)

theorem forall₂_self {R : Field → Field → Prop} (hR : ∀ a, R a a) :
    ∀ l : List Field, List.Forall₂ R l l := by
  intro l
  induction l with
  | nil => exact List.Forall₂.nil
  | cons a l ih => exact List.Forall₂.cons (hR a) ih

/-- C6: on a board of 81 cells that all hold a non-zero number, `Solve` returns success in
its first sweep, the board it returns is the input board, and the stall counter is left at
the value it had before the call. -/
theorem Solve_full_board (board : Board) (g : Globals) (h81 : board.Fields.length = 81)
    (hfull : ∀ f ∈ board.Fields, f.Number ≠ 0) :
    SolveFuel 1 g board = some (.returned board none
      { iterationsSinceLastSolve := g.iterationsSinceLastSolve, solvedNumberCount := 81 }) := by
  rw [SolveFuel, sweep_all_filled _ _ _ hfull (by simp) (by simp [h81])]
  simp

/-- C7: whenever `Solve` returns, with success or with an error, every cell that held a
non-zero number in the input holds the same number in the returned board (cells are paired
by position). -/
theorem Solve_keeps_filled (fuel : Nat) (g : Globals) (board b1 : Board) (e : Option String)
    (g1 : Globals) (h : SolveFuel fuel g board = some (.returned b1 e g1)) :
    List.Forall₂ (fun f f1 => f.Number ≠ 0 → f1.Number = f.Number) board.Fields b1.Fields := by
  refine SolveFuel_preserves
    (fun l => List.Forall₂ (fun f f1 => f.Number ≠ 0 → f1.Number = f.Number) board.Fields l)
    ?_ fuel g board (forall₂_self (fun _ _ => rfl) _) b1 e g1 h
  intro visited field rest cands hN _ hP
  refine forall₂_replace visited _ field _ rest hP ?_
  intro a ha hne
  exact absurd ((ha hne).symm.trans hN) hne

set_option maxRecDepth 100000 in
theorem getBox_boxAt_table : ∀ r ∈ List.range' 1 9, ∀ c ∈ List.range' 1 9,
    GetBoxForField ⟨r, c, 0, []⟩ = .ok (boxAt ((r - 1) / 3) ((c - 1) / 3)) := by
  decide

theorem GetBoxForField_eq_boxAt (field : Field) (h : InGrid field) :
    GetBoxForField field = .ok (boxAt ((field.Row - 1) / 3) ((field.Column - 1) / 3)) := by
  obtain ⟨⟨h1, h2⟩, h3, h4⟩ := h
  exact getBox_boxAt_table field.Row (List.mem_range'_1.2 (by omega))
    field.Column (List.mem_range'_1.2 (by omega))

theorem contains_toInt (slice : List Nat) (x : Nat) (hs : ∀ a ∈ slice, a < 9223372036854775808)
    (hx : x < 18446744073709551616) : contains slice (toInt x) = true ↔ x ∈ slice := by
  rw [contains_iff]
  constructor
  · rintro ⟨a, ha, h⟩
    rw [toInt_of_lt a (hs a ha)] at h
    have := (toInt_eq_digit x a hx (hs a ha)).1 h.symm
    rw [this]; exact ha
  · intro h
    exact ⟨x, h, rfl⟩

theorem inBox_boxAt_iff (i j : Nat) (hi : i ≤ 2) (hj : j ≤ 2) (g : Field)
    (hr : g.Row < 18446744073709551616) (hc : g.Column < 18446744073709551616) :
    inBox (boxAt i j) g = true ↔ InGrid g ∧ (g.Row - 1) / 3 = i ∧ (g.Column - 1) / 3 = j := by
  unfold inBox boxAt InGrid
  rw [Bool.and_eq_true, contains_toInt _ _ (by simp; omega) hr,
    contains_toInt _ _ (by simp; omega) hc]
  simp only [List.mem_cons, List.mem_singleton, List.not_mem_nil, or_false]
  omega

theorem inBox_iff_sameBox (field : Field) (h : InGrid field) (g : Field)
    (hr : g.Row < 18446744073709551616) (hc : g.Column < 18446744073709551616) :
    inBox (boxAt ((field.Row - 1) / 3) ((field.Column - 1) / 3)) g = true ↔ SameBox g field := by
  obtain ⟨⟨h1, h2⟩, h3, h4⟩ := h
  exact inBox_boxAt_iff _ _ (by omega) (by omega) g hr hc

theorem fits_iff_isCandidate (board : Board) (field : Field) (h : InGrid field)
    (hb : UintCoords board) (d : Nat) (hd : 1 ≤ d ∧ d ≤ 9) :
    fits board field (boxAt ((field.Row - 1) / 3) ((field.Column - 1) / 3)) d = true ↔
      IsCandidate board field d := by
  have hdi : toInt d = (d : Int) := toInt_of_lt d (by omega)
  unfold fits IsCandidate HasNumberInColumn HasNumberInRow
  simp only [Bool.and_eq_true, Bool.not_eq_true', ← Bool.not_eq_true, hasNumberInBoxLoop_iff,
    hasNumberInColumnLoop_iff, hasNumberInRowLoop_iff, hdi]
  constructor
  · rintro ⟨⟨hbox, hcol⟩, hrow⟩
    refine ⟨hd, ?_⟩
    intro g hg hor heq
    rcases hor with hr | hc | hs
    · exact hrow ⟨g, hg, hr, heq⟩
    · exact hcol ⟨g, hg, hc, heq⟩
    · exact hbox ⟨g, hg, (inBox_iff_sameBox field h g (hb g hg).1 (hb g hg).2).2 hs, heq⟩
  · rintro ⟨-, hall⟩
    refine ⟨⟨?_, ?_⟩, ?_⟩
    · rintro ⟨g, hg, hin, heq⟩
      exact hall g hg (Or.inr (Or.inr
        ((inBox_iff_sameBox field h g (hb g hg).1 (hb g hg).2).1 hin))) heq
    · rintro ⟨g, hg, hc, heq⟩
      exact hall g hg (Or.inr (Or.inl hc)) heq
    · rintro ⟨g, hg, hr, heq⟩
      exact hall g hg (Or.inl hr) heq

theorem possibleNumbers_eq_candidates (board : Board) (field : Field) (h : InGrid field)
    (hb : UintCoords board) :
    possibleNumbers board field = some (candidates board field) := by
  rw [possibleNumbers_eq board field _ (GetBoxForField_eq_boxAt field h)]
  unfold candidates
  congr 1
  apply List.filter_congr
  intro d hd
  rw [List.mem_range'_1] at hd
  rw [Bool.eq_iff_iff, fits_iff_isCandidate board field h hb d (by omega)]
  simp

theorem isCandidate_congr (board board1 : Board) (f f1 : Field) (d : Nat)
    (hk : board.Fields.map key = board1.Fields.map key) (hr : f.Row = f1.Row)
    (hc : f.Column = f1.Column) : IsCandidate board f d ↔ IsCandidate board1 f1 d := by
  have H : ∀ (l : List Field), (∀ g ∈ l, (g.Row = f.Row ∨ g.Column = f.Column ∨ SameBox g f) →
        g.Number ≠ (d : Int)) ↔
      ∀ k ∈ l.map key, (k.1 = f.Row ∨ k.2.1 = f.Column ∨
        (((1 ≤ k.1 ∧ k.1 ≤ 9) ∧ (1 ≤ k.2.1 ∧ k.2.1 ≤ 9)) ∧ (k.1 - 1) / 3 = (f.Row - 1) / 3 ∧
          (k.2.1 - 1) / 3 = (f.Column - 1) / 3)) → k.2.2 ≠ (d : Int) := by
    intro l
    rw [List.forall_mem_map]
    rfl
  unfold IsCandidate
  rw [H board.Fields, hk, ← hr, ← hc, ← H board1.Fields]
  simp only [SameBox, hr, hc]

theorem candidates_congr (board board1 : Board) (f f1 : Field)
    (hk : board.Fields.map key = board1.Fields.map key) (hr : f.Row = f1.Row)
    (hc : f.Column = f1.Column) : candidates board f = candidates board1 f1 := by
  unfold candidates
  apply List.filter_congr
  intro d _
  rw [Bool.eq_iff_iff]
  simp only [decide_eq_true_eq]
  exact isCandidate_congr board board1 f f1 d hk hr hc

theorem filled_append (l1 l2 : List Field) : filled (l1 ++ l2) = filled l1 + filled l2 := by
  simp [filled, List.countP_append]

theorem filled_cons (f : Field) (l : List Field) :
    filled (f :: l) = filled l + (if f.Number ≠ 0 then 1 else 0) := by
  simp [filled, List.countP_cons]

theorem filled_add_empties (l : List Field) : filled l + empties l = l.length := by
  induction l with
  | nil => rfl
  | cons f l ih =>
    rw [filled_cons, empties_cons, List.length_cons]
    by_cases h : f.Number = 0 <;> simp [h] <;> omega

theorem uintCoords_of_inGrid (board : Board) (h : ∀ f ∈ board.Fields, InGrid f) :
    UintCoords board := by
  intro g hg
  obtain ⟨⟨_, h2⟩, _, h4⟩ := h g hg
  omega

/-- A sweep returns success only after it has counted 81 filled cells. -/
theorem sweep_success_filled (rest : List Field) :
    ∀ (visited : List Field) (g : Globals) (b1 : Board) (g1 : Globals),
      g.solvedNumberCount ≤ filled visited →
      sweep visited rest g = .done (.returned b1 none g1) → 81 ≤ filled b1.Fields := by
  induction rest with
  | nil => intro visited g b1 g1 _ h; simp [sweep_nil] at h
  | cons field rest ih =>
    intro visited g b1 g1 hle h
    by_cases hN : field.Number = 0
    · cases hc : possibleNumbers ⟨visited ++ field :: rest⟩ field with
      | none => simp [sweep_fatal _ _ _ _ hN hc] at h
      | some cands =>
        rw [sweep_empty _ _ _ _ _ hN hc] at h
        split_ifs at h
        · simp at h
        · refine ih _ _ b1 g1 ?_ h
          rw [filled_append]
          simp only []
          omega
    · rw [sweep_filled _ _ _ _ hN] at h
      split_ifs at h with h81
      · simp only [Sweep.done.injEq, Outcome.returned.injEq, true_and] at h
        rw [← h.1]
        simp only [filled_append, filled_cons, if_pos hN]
        omega
      · refine ih _ _ b1 g1 ?_ h
        have h0 : filled ([] : List Field) = 0 := rfl
        rw [filled_append, filled_cons, if_pos hN, h0]
        push_cast
        omega

theorem SolveFuel_success_filled (fuel : Nat) :
    ∀ (g : Globals) (board b1 : Board) (g1 : Globals),
      SolveFuel fuel g board = some (.returned b1 none g1) → 81 ≤ filled b1.Fields := by
  induction fuel with
  | zero => intro g board b1 g1 h; simp [SolveFuel] at h
  | succ fuel ih =>
    intro g board b1 g1 h
    rw [SolveFuel] at h
    cases hs : sweep [] board.Fields { g with solvedNumberCount := 0 } with
    | next b2 g2 => rw [hs] at h; exact ih _ _ _ _ h
    | done out =>
      rw [hs] at h
      simp only [Option.some.injEq] at h
      subst h
      exact sweep_success_filled _ _ _ _ _ (by simp [filled]) hs

theorem empties_eq_of_key (l1 l2 : List Field) (h : l1.map key = l2.map key) :
    empties l1 = empties l2 := by
  have H : ∀ l : List Field, empties l = (l.map key).countP (fun k => k.2.2 = 0) := by
    intro l
    rw [List.countP_map]
    rfl
  rw [H, H, h]

theorem key_assign_not_single (field : Field) (cands : List Nat) (h : cands.length ≠ 1) :
    key (assign field cands) = key field := by
  rw [assign_not_single _ _ h]
  rfl

/-- C4: on a board of 81 cells of the grid with at least one empty cell and no empty cell
with exactly one candidate digit, `Solve` returns the error "too many iterations since last
solve", whatever the stall counter starts with, and every cell of the returned board has the
Number (and the Row and Column) it had in the input. -/
theorem Solve_stuck_board (board : Board) (g : Globals) (h81 : board.Fields.length = 81)
    (hgrid : ∀ f ∈ board.Fields, InGrid f) (hempty : ∃ f ∈ board.Fields, f.Number = 0)
    (hstuck : ∀ f ∈ board.Fields, f.Number = 0 → (candidates board f).length ≠ 1) :
    ∃ fuel b1 g1, SolveFuel fuel g board = some (.returned b1 (some tooManyIterations) g1) ∧
      b1.Fields.map (fun f => f.Number) = board.Fields.map (fun f => f.Number) ∧
      b1.Fields.map key = board.Fields.map key := by
  -- the cells keep what the queries read of them
  have hkeep : ∀ fuel b1 e g1, SolveFuel fuel g board = some (.returned b1 e g1) →
      b1.Fields.map key = board.Fields.map key := by
    intro fuel b1 e g1 hs
    refine SolveFuel_preserves (fun l => l.map key = board.Fields.map key) ?_ fuel g board rfl
      b1 e g1 hs
    intro visited field rest cands hN hc hP
    -- the visited cell sits in a board with the keys of the input
    have hmem : key field ∈ board.Fields.map key := by
      rw [← hP]; simp
    obtain ⟨f0, hf0, hk0⟩ := List.mem_map.1 hmem
    have hr : f0.Row = field.Row := congrArg Prod.fst hk0
    have hcol : f0.Column = field.Column := congrArg (fun k => k.2.1) hk0
    have hnum : f0.Number = field.Number := congrArg (fun k => k.2.2) hk0
    have hin : InGrid field := by
      have := hgrid f0 hf0
      unfold InGrid at this ⊢
      rw [← hr, ← hcol]; exact this
    have huint : UintCoords ⟨visited ++ field :: rest⟩ := by
      intro x hx
      have hxk : key x ∈ board.Fields.map key := by
        rw [← hP]; exact List.mem_map.2 ⟨x, hx, rfl⟩
      obtain ⟨x0, hx0, hxk0⟩ := List.mem_map.1 hxk
      have h1 : x0.Row = x.Row := congrArg Prod.fst hxk0
      have h2 : x0.Column = x.Column := congrArg (fun k => k.2.1) hxk0
      have := uintCoords_of_inGrid board hgrid x0 hx0
      rw [h1, h2] at this
      exact this
    rw [possibleNumbers_eq_candidates _ field hin huint] at hc
    have hcand : candidates ⟨visited ++ field :: rest⟩ field = candidates board f0 :=
      candidates_congr _ _ _ _ hP hr.symm hcol.symm
    have hlen : cands.length ≠ 1 := by
      have := hstuck f0 hf0 (hnum.trans hN)
      rw [← hcand] at this
      simp only [Option.some.injEq] at hc
      rw [← hc]; exact this
    simp only [List.map_append, List.map_cons, key_assign_not_single _ _ hlen] at hP ⊢
    exact hP
  obtain ⟨fuel, b1, g1, hres⟩ := SolveFuel_returns board g h81 hgrid
  rcases hres with hs | hs
  · -- success is excluded: the returned board still has an empty cell
    exfalso
    have hk := hkeep fuel b1 none g1 hs
    have hfull := SolveFuel_success_filled fuel g board b1 g1 hs
    have hlen : b1.Fields.length = 81 := by
      have := congrArg List.length hk
      simpa [h81] using this
    have he := empties_eq_of_key _ _ hk
    have hsum := filled_add_empties b1.Fields
    have hpos : 0 < empties board.Fields := by
      obtain ⟨f, hf, hf0⟩ := hempty
      unfold empties
      exact List.countP_pos_iff.2 ⟨f, hf, by simpa using hf0⟩
    omega
  · have hk := hkeep fuel b1 _ g1 hs
    refine ⟨fuel, b1, g1, hs, ?_, hk⟩
    have := congrArg (List.map (fun k : Nat × Nat × Int => k.2.2)) hk
    simpa [List.map_map, key, Function.comp_def] using this

theorem SolveFuel_next (fuel : Nat) (g : Globals) (board b1 : Board) (g1 : Globals)
    (h : sweep [] board.Fields { g with solvedNumberCount := 0 } = .next b1 g1) :
    SolveFuel (fuel + 1) g board = SolveFuel fuel g1 b1 := by
  rw [SolveFuel, h]

theorem SolveFuel_done (fuel : Nat) (g : Globals) (board : Board) (out : Outcome)
    (h : sweep [] board.Fields { g with solvedNumberCount := 0 } = .done out) :
    SolveFuel (fuel + 1) g board = some out := by
  rw [SolveFuel, h]

/-- C8: on a board of 81 cells of the grid whose only empty cell `field` has exactly one
candidate digit `d`, `Solve` returns success (in its second sweep) and the returned board is
the input with the Number of that cell set to `d`; every other cell is unchanged. -/
theorem Solve_one_empty_cell (pre post : List Field) (field : Field) (d : Nat) (g : Globals)
    (h81 : (pre ++ field :: post).length = 81)
    (hgrid : ∀ f ∈ pre ++ field :: post, InGrid f)
    (hN : field.Number = 0) (hpre : ∀ f ∈ pre, f.Number ≠ 0) (hpost : ∀ f ∈ post, f.Number ≠ 0)
    (hd : candidates ⟨pre ++ field :: post⟩ field = [d]) :
    SolveFuel 2 g ⟨pre ++ field :: post⟩ =
      some (.returned ⟨pre ++ { field with Number := (d : Int), PossibleNumbers := [] } :: post⟩
        none { iterationsSinceLastSolve := 0, solvedNumberCount := 81 }) := by
  have hlen : pre.length + post.length = 80 := by
    simp only [List.length_append, List.length_cons] at h81; omega
  have hc : possibleNumbers ⟨pre ++ field :: post⟩ field = some [d] := by
    rw [possibleNumbers_eq_candidates _ field (hgrid field (by simp))
      (uintCoords_of_inGrid _ hgrid), hd]
  have hdig : 1 ≤ d ∧ d ≤ 9 := possibleNumbers_digit _ _ _ hc d (by simp)
  have hto : toInt d = (d : Int) := toInt_of_lt d (by omega)
  have hfill : ∀ f ∈ pre ++ { field with Number := (d : Int), PossibleNumbers := [] } :: post,
      f.Number ≠ 0 := by
    intro f hf
    rcases List.mem_append.1 hf with h | h
    · exact hpre f h
    · rcases List.mem_cons.1 h with rfl | h
      · simp only []; omega
      · exact hpost f h
  have hsweep1 : sweep [] (pre ++ field :: post)
      { g with solvedNumberCount := 0 } =
      .next ⟨pre ++ { field with Number := (d : Int), PossibleNumbers := [] } :: post⟩
        { iterationsSinceLastSolve := 0, solvedNumberCount := 80 } := by
    rw [sweep_skip_filled pre _ _ _ hpre (by simp only []; omega),
      sweep_empty _ _ _ _ [d] hN (by simpa using hc)]
    have h0 : stallAfter g.iterationsSinceLastSolve [d] = 0 := rfl
    rw [h0, if_neg (by decide), assign_single, hto]
    have := sweep_skip_filled post
      ([] ++ pre ++ [{ field with Number := (d : Int), PossibleNumbers := [] }]) []
      { iterationsSinceLastSolve := 0, solvedNumberCount := 0 + (pre.length : Int) } hpost
      (by simp only []; omega)
    rw [List.append_nil] at this
    rw [this, sweep_nil]
    simp only [List.nil_append, List.append_assoc, List.singleton_append, Sweep.next.injEq,
      Globals.mk.injEq, true_and]
    omega
  rw [SolveFuel_next 1 g _ _ _ hsweep1]
  exact SolveFuel_done 0 _ _ _ (sweep_all_filled _ _ _ hfill (by simp) (by simp; omega))

theorem sum_countP_digits {α : Type} (l : List α) (u : α → Prop) [DecidablePred u]
    (v : α → Int) :
    l.countP (fun x => u x ∧ v x = 1) + l.countP (fun x => u x ∧ v x = 2) +
      l.countP (fun x => u x ∧ v x = 3) + l.countP (fun x => u x ∧ v x = 4) +
      l.countP (fun x => u x ∧ v x = 5) + l.countP (fun x => u x ∧ v x = 6) +
      l.countP (fun x => u x ∧ v x = 7) + l.countP (fun x => u x ∧ v x = 8) +
      l.countP (fun x => u x ∧ v x = 9) =
    l.countP (fun x => u x ∧ 1 ≤ v x ∧ v x ≤ 9) := by
  induction l with
  | nil => rfl
  | cons a l ih =>
    simp only [List.countP_cons]
    rw [← ih]
    by_cases hu : u a
    · by_cases hv : 1 ≤ v a ∧ v a ≤ 9
      · have : v a = 1 ∨ v a = 2 ∨ v a = 3 ∨ v a = 4 ∨ v a = 5 ∨ v a = 6 ∨ v a = 7 ∨ v a = 8 ∨
            v a = 9 := by omega
        rcases this with h | h | h | h | h | h | h | h | h <;> simp [hu, h] <;> omega
      · have h1 : v a ≠ 1 := by omega
        have h2 : v a ≠ 2 := by omega
        have h3 : v a ≠ 3 := by omega
        have h4 : v a ≠ 4 := by omega
        have h5 : v a ≠ 5 := by omega
        have h6 : v a ≠ 6 := by omega
        have h7 : v a ≠ 7 := by omega
        have h8 : v a ≠ 8 := by omega
        have h9 : v a ≠ 9 := by omega
        have h0 : ¬ (1 ≤ v a ∧ v a ≤ 9) := hv
        simp [hu, h1, h2, h3, h4, h5, h6, h7, h8, h9, h0]
    · simp [hu]

theorem two_le_length_of_mem_ne {α : Type} {a b : α} :
    ∀ {l : List α}, a ∈ l → b ∈ l → a ≠ b → 2 ≤ l.length
  | [], ha, _, _ => by simp at ha
  | [x], ha, hb, hab => by
    simp only [List.mem_singleton] at ha hb
    exact absurd (ha.trans hb.symm) hab
  | _ :: _ :: _, _, _, _ => by simp

theorem eq_of_countP_eq_one {α : Type} (l : List α) (q : α → Prop) [DecidablePred q]
    (h : l.countP (fun x => q x) = 1) (a b : α) (ha : a ∈ l) (hb : b ∈ l) (qa : q a) (qb : q b) :
    a = b := by
  by_contra hab
  have h2 := two_le_length_of_mem_ne (l := l.filter (fun x => q x))
    (List.mem_filter.2 ⟨ha, by simpa using qa⟩) (List.mem_filter.2 ⟨hb, by simpa using qb⟩) hab
  rw [← List.countP_eq_length_filter] at h2
  omega

theorem digit_cases (d : Nat) (h : d ∈ List.range' 1 9) :
    d = 1 ∨ d = 2 ∨ d = 3 ∨ d = 4 ∨ d = 5 ∨ d = 6 ∨ d = 7 ∨ d = 8 ∨ d = 9 := by
  rw [List.mem_range'_1] at h
  omega

theorem mem_digits (d : Nat) (h : 1 ≤ d ∧ d ≤ 9) : d ∈ List.range' 1 9 :=
  List.mem_range'_1.2 (by omega)

/-- Every entry of a solution, at a place of the grid, is a digit 1..9. -/
theorem IsSolution.digit {S : Nat → Nat → Int} (hS : IsSolution S) (r c : Nat)
    (hr : 1 ≤ r ∧ r ≤ 9) (hc : 1 ≤ c ∧ c ≤ 9) : 1 ≤ S r c ∧ S r c ≤ 9 := by
  have hrow := hS.1 r (mem_digits r hr)
  have hsum := sum_countP_digits (List.range' 1 9) (fun _ => True) (fun c => S r c)
  simp only [true_and] at hsum
  have e1 := hrow 1 (by decide)
  have e2 := hrow 2 (by decide)
  have e3 := hrow 3 (by decide)
  have e4 := hrow 4 (by decide)
  have e5 := hrow 5 (by decide)
  have e6 := hrow 6 (by decide)
  have e7 := hrow 7 (by decide)
  have e8 := hrow 8 (by decide)
  have e9 := hrow 9 (by decide)
  simp only [Nat.cast_ofNat, Nat.cast_one] at e1 e2 e3 e4 e5 e6 e7 e8 e9
  rw [e1, e2, e3, e4, e5, e6, e7, e8, e9] at hsum
  have hall : (List.range' 1 9).countP (fun c => decide (1 ≤ S r c ∧ S r c ≤ 9)) =
      (List.range' 1 9).length := by
    rw [← hsum]; rfl
  rw [List.countP_eq_length] at hall
  simpa using hall c (mem_digits c hc)

theorem boxAt_mem_boxes (i j : Nat) (hi : i ≤ 2) (hj : j ≤ 2) : boxAt i j ∈ boxes := by
  interval_cases i <;> interval_cases j <;> decide

theorem boxes_eq_boxAt : ∀ box ∈ boxes, ∃ i ∈ List.range 3, ∃ j ∈ List.range 3,
    box = boxAt i j := by
  decide

theorem mem_boxAt_rows (i r : Nat) : r ∈ [3 * i + 1, 3 * i + 2, 3 * i + 3] ↔
    1 ≤ r ∧ (r - 1) / 3 = i := by
  simp only [List.mem_cons, List.mem_singleton, List.not_mem_nil, or_false]
  omega

theorem IsSolution.row_inj {S : Nat → Nat → Int} (hS : IsSolution S) (r c c1 : Nat)
    (hr : 1 ≤ r ∧ r ≤ 9) (hc : 1 ≤ c ∧ c ≤ 9) (hc1 : 1 ≤ c1 ∧ c1 ≤ 9)
    (h : S r c = S r c1) : c = c1 := by
  have hd := hS.digit r c hr hc
  have hcast : ((S r c).toNat : Int) = S r c := Int.toNat_of_nonneg (by omega)
  have hcount := hS.1 r (mem_digits r hr) (S r c).toNat (mem_digits _ (by omega))
  rw [hcast] at hcount
  exact eq_of_countP_eq_one _ (fun x => S r x = S r c) (by simpa using hcount) c c1
    (mem_digits c hc) (mem_digits c1 hc1) rfl h.symm

theorem IsSolution.col_inj {S : Nat → Nat → Int} (hS : IsSolution S) (c r r1 : Nat)
    (hc : 1 ≤ c ∧ c ≤ 9) (hr : 1 ≤ r ∧ r ≤ 9) (hr1 : 1 ≤ r1 ∧ r1 ≤ 9)
    (h : S r c = S r1 c) : r = r1 := by
  have hd := hS.digit r c hr hc
  have hcast : ((S r c).toNat : Int) = S r c := Int.toNat_of_nonneg (by omega)
  have hcount := hS.2.1 c (mem_digits c hc) (S r c).toNat (mem_digits _ (by omega))
  rw [hcast] at hcount
  exact eq_of_countP_eq_one _ (fun x => S x c = S r c) (by simpa using hcount) r r1
    (mem_digits r hr) (mem_digits r1 hr1) rfl h.symm

theorem IsSolution.box_inj {S : Nat → Nat → Int} (hS : IsSolution S) (r c r1 c1 : Nat)
    (hr : 1 ≤ r ∧ r ≤ 9) (hc : 1 ≤ c ∧ c ≤ 9) (hr1 : 1 ≤ r1 ∧ r1 ≤ 9) (hc1 : 1 ≤ c1 ∧ c1 ≤ 9)
    (hbr : (r1 - 1) / 3 = (r - 1) / 3) (hbc : (c1 - 1) / 3 = (c - 1) / 3)
    (h : S r c = S r1 c1) : r = r1 ∧ c = c1 := by
  have hd := hS.digit r c hr hc
  have hcast : ((S r c).toNat : Int) = S r c := Int.toNat_of_nonneg (by omega)
  have hbox := boxAt_mem_boxes ((r - 1) / 3) ((c - 1) / 3) (by omega) (by omega)
  have hcount := hS.2.2 _ hbox (S r c).toNat (mem_digits _ (by omega))
  rw [hcast] at hcount
  have hm : (r, c) ∈ List.product (boxAt ((r - 1) / 3) ((c - 1) / 3)).Rows
      (boxAt ((r - 1) / 3) ((c - 1) / 3)).Cols := by
    rw [List.pair_mem_product]
    exact ⟨(mem_boxAt_rows _ _).2 ⟨hr.1, rfl⟩, (mem_boxAt_rows _ _).2 ⟨hc.1, rfl⟩⟩
  have hm1 : (r1, c1) ∈ List.product (boxAt ((r - 1) / 3) ((c - 1) / 3)).Rows
      (boxAt ((r - 1) / 3) ((c - 1) / 3)).Cols := by
    rw [List.pair_mem_product]
    exact ⟨(mem_boxAt_rows _ _).2 ⟨hr1.1, hbr⟩, (mem_boxAt_rows _ _).2 ⟨hc1.1, hbc⟩⟩
  have := eq_of_countP_eq_one _ (fun p : Nat × Nat => S p.1 p.2 = S r c)
    (by simpa using hcount) (r, c) (r1, c1) hm hm1 rfl h.symm
  exact ⟨congrArg Prod.fst this, congrArg Prod.snd this⟩

/-- In a board that agrees with a solution on its filled cells, and has one cell per place,
the digit of the solution at an empty cell is a candidate for it. -/
theorem isCandidate_of_solution {S : Nat → Nat → Int} (hS : IsSolution S) (l : List Field)
    (hgrid : ∀ f ∈ l, InGrid f) (hnd : (l.map coord).Nodup)
    (hagree : ∀ f ∈ l, f.Number ≠ 0 → f.Number = S f.Row f.Column)
    (field : Field) (hf : field ∈ l) (hN : field.Number = 0) :
    IsCandidate ⟨l⟩ field (S field.Row field.Column).toNat := by
  obtain ⟨hr, hc⟩ := hgrid field hf
  have hd := hS.digit _ _ hr hc
  have hcast : ((S field.Row field.Column).toNat : Int) = S field.Row field.Column :=
    Int.toNat_of_nonneg (by omega)
  refine ⟨by omega, ?_⟩
  intro g hg hunit heq
  rw [hcast] at heq
  obtain ⟨hgr, hgc⟩ := hgrid g hg
  have hg0 : g.Number ≠ 0 := by omega
  have hgS := hagree g hg hg0
  rw [heq] at hgS
  -- the same digit of the solution at two places of one unit: the places are one
  have hcoord : coord g = coord field := by
    rcases hunit with h | h | ⟨-, h1, h2⟩
    · have := hS.row_inj field.Row field.Column g.Column hr hc hgc (by rw [hgS, h])
      simp only [coord, h, this]
    · have := hS.col_inj field.Column field.Row g.Row hc hr hgr (by rw [hgS, h])
      simp only [coord, h, this]
    · have := hS.box_inj field.Row field.Column g.Row g.Column hr hc hgr hgc h1 h2 hgS
      simp only [coord, this.1, this.2]
  have := List.inj_on_of_nodup_map hnd hg hf hcoord
  rw [this] at hg0
  exact hg0 hN

theorem coord_assign (field : Field) (cands : List Nat) :
    coord (assign field cands) = coord field := by
  rcases length_eq_one_cases cands with ⟨n, rfl⟩ | hlen
  · rfl
  · rw [assign_not_single _ _ hlen]; rfl

theorem map_coord_assign (visited rest : List Field) (field : Field) (cands : List Nat) :
    (visited ++ assign field cands :: rest).map coord = (visited ++ field :: rest).map coord := by
  simp only [List.map_append, List.map_cons, coord_assign]

theorem inGrid_of_map_coord (l l0 : List Field) (h : l.map coord = l0.map coord)
    (h0 : ∀ f ∈ l0, InGrid f) : ∀ f ∈ l, InGrid f := by
  intro f hf
  have hm : coord f ∈ l0.map coord := by
    rw [← h]; exact List.mem_map.2 ⟨f, hf, rfl⟩
  obtain ⟨f0, hf0, hk⟩ := List.mem_map.1 hm
  have hr : f0.Row = f.Row := congrArg Prod.fst hk
  have hc : f0.Column = f.Column := congrArg Prod.snd hk
  have := h0 f0 hf0
  unfold InGrid at this ⊢
  rw [← hr, ← hc]; exact this

/-- The digit written by a visit is a candidate of the cell; a visit that writes nothing
leaves the Number of the cell. -/
theorem assign_number (l : Board) (field : Field) (cands : List Nat) (hin : InGrid field)
    (hu : UintCoords l) (hc : possibleNumbers l field = some cands) :
    (assign field cands).Number = field.Number ∨
      ∃ n, cands = [n] ∧ candidates l field = [n] ∧ (assign field cands).Number = (n : Int) ∧
        IsCandidate l field n := by
  rw [possibleNumbers_eq_candidates l field hin hu] at hc
  simp only [Option.some.injEq] at hc
  rcases length_eq_one_cases cands with ⟨n, rfl⟩ | hlen
  · right
    have hmem : n ∈ candidates l field := by rw [hc]; simp
    simp only [candidates, List.mem_filter, List.mem_range'_1, decide_eq_true_eq] at hmem
    refine ⟨n, rfl, hc, ?_, hmem.2⟩
    rw [assign_single]
    exact toInt_of_lt n (by omega)
  · left
    rw [assign_not_single _ _ hlen]

/-- C2: let `board` have 81 cells, one per place of the grid, and let `S` be a complete valid
Sudoku grid that agrees with `board` on every filled cell.  Then `Solve` returns, and in the
board it returns, with success or with an error and whatever the stall counter was, every
filled cell holds the digit of `S` at its place; after success every cell does, so the board
returned is `S`. -/
theorem Solve_sound (board : Board) (g : Globals) (S : Nat → Nat → Int)
    (hshape : WellShaped board) (hS : IsSolution S)
    (hagree : ∀ f ∈ board.Fields, f.Number ≠ 0 → f.Number = S f.Row f.Column) :
    (∃ fuel b1 e g1, SolveFuel fuel g board = some (.returned b1 e g1)) ∧
      ∀ fuel b1 e g1, SolveFuel fuel g board = some (.returned b1 e g1) →
        b1.Fields.map coord = board.Fields.map coord ∧
        (∀ f ∈ b1.Fields, f.Number ≠ 0 → f.Number = S f.Row f.Column) ∧
        (e = none → ∀ f ∈ b1.Fields, f.Number = S f.Row f.Column) := by
  obtain ⟨h81, hgrid, hnd⟩ := hshape
  constructor
  · obtain ⟨fuel, b1, g1, h | h⟩ := SolveFuel_returns board g h81 hgrid
    · exact ⟨fuel, b1, _, g1, h⟩
    · exact ⟨fuel, b1, _, g1, h⟩
  · intro fuel b1 e g1 hs
    have hinv := SolveFuel_preserves
      (fun l => l.map coord = board.Fields.map coord ∧
        ∀ f ∈ l, f.Number ≠ 0 → f.Number = S f.Row f.Column) ?_ fuel g board ⟨rfl, hagree⟩
      b1 e g1 hs
    · refine ⟨hinv.1, hinv.2, ?_⟩
      rintro rfl f hf
      have hfull := SolveFuel_success_filled fuel g board b1 g1 hs
      have hlen : b1.Fields.length = 81 := by
        have := congrArg List.length hinv.1
        simpa [h81] using this
      have hsum := filled_add_empties b1.Fields
      have he : empties b1.Fields = 0 := by omega
      exact hinv.2 f hf ((empties_eq_zero _).1 he f hf)
    · rintro visited field rest cands hN hc ⟨hco, hag⟩
      have hgrid1 := inGrid_of_map_coord _ _ hco hgrid
      have hnd1 : ((visited ++ field :: rest).map coord).Nodup := by rw [hco]; exact hnd
      refine ⟨(map_coord_assign visited rest field cands).trans hco, ?_⟩
      intro f hf hf0
      have hold : f ∈ visited ++ field :: rest ∨ f = assign field cands := by
        simp only [List.mem_append, List.mem_cons] at hf ⊢
        tauto
      rcases hold with hold | rfl
      · exact hag f hold hf0
      · have hfield : field ∈ visited ++ field :: rest := by simp
        have hco1 := coord_assign field cands
        have hrow : (assign field cands).Row = field.Row := congrArg Prod.fst hco1
        have hcol : (assign field cands).Column = field.Column := congrArg Prod.snd hco1
        have hin := hgrid1 field hfield
        rcases assign_number ⟨visited ++ field :: rest⟩ field cands hin
          (uintCoords_of_inGrid _ hgrid1) hc with h | ⟨n, -, hcand, hnum, -⟩
        · exact absurd (h.trans hN) hf0
        · have hk := isCandidate_of_solution hS _ hgrid1 hnd1 hag field hfield hN
          have hd := hS.digit _ _ hin.1 hin.2
          have hmem : (S field.Row field.Column).toNat ∈
              candidates ⟨visited ++ field :: rest⟩ field := by
            simp only [candidates, List.mem_filter, List.mem_range'_1, decide_eq_true_eq]
            exact ⟨by omega, hk⟩
          rw [hcand, List.mem_singleton] at hmem
          rw [hnum, hrow, hcol, ← hmem]
          exact Int.toNat_of_nonneg (by omega)

theorem countP_replace (q : Field → Prop) [DecidablePred q] (visited rest : List Field)
    (x y : Field) :
    (visited ++ y :: rest).countP (fun f => q f) + (if q x then 1 else 0) =
      (visited ++ x :: rest).countP (fun f => q f) + (if q y then 1 else 0) := by
  simp only [List.countP_append, List.countP_cons, decide_eq_true_eq]
  omega

/-- Writing a candidate digit into an empty cell puts no digit twice into a unit. -/
theorem countP_fill_le_one (q : Field → Prop) [DecidablePred q] (visited rest : List Field)
    (x y : Field) (hx : ¬ q x)
    (hy : q y → ∀ g ∈ visited ++ x :: rest, ¬ q g)
    (h : (visited ++ x :: rest).countP (fun f => q f) ≤ 1) :
    (visited ++ y :: rest).countP (fun f => q f) ≤ 1 := by
  have hrep := countP_replace q visited rest x y
  rw [if_neg hx] at hrep
  by_cases hq : q y
  · have h0 : (visited ++ x :: rest).countP (fun f => q f) = 0 := by
      rw [List.countP_eq_zero]
      intro g hg
      simpa using hy hq g hg
    rw [if_pos hq] at hrep
    omega
  · rw [if_neg hq] at hrep
    omega

theorem consistent_assign (visited rest : List Field) (field : Field) (cands : List Nat)
    (hgrid : ∀ f ∈ visited ++ field :: rest, InGrid f) (hN : field.Number = 0)
    (hc : possibleNumbers ⟨visited ++ field :: rest⟩ field = some cands)
    (h : Consistent ⟨visited ++ field :: rest⟩) :
    Consistent ⟨visited ++ assign field cands :: rest⟩ := by
  have hfield : field ∈ visited ++ field :: rest := by simp
  have hin := hgrid field hfield
  have hco1 := coord_assign field cands
  have hrow : (assign field cands).Row = field.Row := congrArg Prod.fst hco1
  have hcol : (assign field cands).Column = field.Column := congrArg Prod.snd hco1
  intro d hd
  have hd1 := List.mem_range'_1.1 hd
  have hx : field.Number ≠ (d : Int) := by
    rw [hN]
    omega
  obtain ⟨hr, hcl, hb⟩ := h d hd
  rcases assign_number ⟨visited ++ field :: rest⟩ field cands hin
    (uintCoords_of_inGrid _ hgrid) hc with hnum | ⟨n, -, -, hnum, hcand⟩
  · -- nothing written: no predicate on a unit and a digit changes
    have hy : (assign field cands).Number ≠ (d : Int) := by
      rw [hnum, hN]
      omega
    refine ⟨fun r hr1 => ?_, fun c hc1 => ?_, fun box hbox => ?_⟩
    · exact countP_fill_le_one _ visited rest field _ (fun hq => hx hq.2) (fun hq => absurd hq.2 hy)
        (hr r hr1)
    · exact countP_fill_le_one _ visited rest field _ (fun hq => hx hq.2) (fun hq => absurd hq.2 hy)
        (hcl c hc1)
    · exact countP_fill_le_one _ visited rest field _ (fun hq => hx hq.2) (fun hq => absurd hq.2 hy)
        (hb box hbox)
  · refine ⟨fun r hr1 => ?_, fun c hc1 => ?_, fun box hbox => ?_⟩
    · refine countP_fill_le_one _ visited rest field _ (fun hq => hx hq.2) ?_ (hr r hr1)
      rintro ⟨h1, h2⟩ g hg ⟨h3, h4⟩
      rw [hnum] at h2
      have hdn : n = d := by omega
      exact hcand.2 g hg (Or.inl (by rw [h3, ← h1, hrow])) (by rw [h4, hdn])
    · refine countP_fill_le_one _ visited rest field _ (fun hq => hx hq.2) ?_ (hcl c hc1)
      rintro ⟨h1, h2⟩ g hg ⟨h3, h4⟩
      rw [hnum] at h2
      have hdn : n = d := by omega
      exact hcand.2 g hg (Or.inr (Or.inl (by rw [h3, ← h1, hcol]))) (by rw [h4, hdn])
    · refine countP_fill_le_one _ visited rest field _ (fun hq => hx hq.2) ?_ (hb box hbox)
      rintro ⟨⟨h1, h1c⟩, h2⟩ g hg ⟨⟨h3, h3c⟩, h4⟩
      rw [hnum] at h2
      have hdn : n = d := by omega
      obtain ⟨i, -, j, -, rfl⟩ := boxes_eq_boxAt box hbox
      rw [hrow] at h1
      rw [hcol] at h1c
      have a1 := (mem_boxAt_rows i _).1 h1
      have a2 := (mem_boxAt_rows j _).1 h1c
      have a3 := (mem_boxAt_rows i _).1 h3
      have a4 := (mem_boxAt_rows j _).1 h3c
      refine hcand.2 g hg (Or.inr (Or.inr ⟨hgrid g hg, ?_, ?_⟩)) (by rw [h4, hdn])
      · rw [a3.2, a1.2]
      · rw [a4.2, a2.2]

theorem counts_eq_one (l : List Field) (u : Field → Prop) [DecidablePred u]
    (hall : ∀ f ∈ l, 1 ≤ f.Number ∧ f.Number ≤ 9) (h9 : l.countP (fun f => u f) = 9)
    (hle : ∀ d ∈ List.range' 1 9, l.countP (fun f => u f ∧ f.Number = (d : Int)) ≤ 1) :
    ∀ d ∈ List.range' 1 9, l.countP (fun f => u f ∧ f.Number = (d : Int)) = 1 := by
  have hsum := sum_countP_digits l u (fun f => f.Number)
  have hcongr : l.countP (fun f => decide (u f ∧ 1 ≤ f.Number ∧ f.Number ≤ 9)) =
      l.countP (fun f => decide (u f)) := by
    apply List.countP_congr
    intro f hf
    have := hall f hf
    simp only [decide_eq_true_eq]
    tauto
  rw [hcongr, h9] at hsum
  have e1 := hle 1 (by decide)
  have e2 := hle 2 (by decide)
  have e3 := hle 3 (by decide)
  have e4 := hle 4 (by decide)
  have e5 := hle 5 (by decide)
  have e6 := hle 6 (by decide)
  have e7 := hle 7 (by decide)
  have e8 := hle 8 (by decide)
  have e9 := hle 9 (by decide)
  simp only [Nat.cast_ofNat, Nat.cast_one] at e1 e2 e3 e4 e5 e6 e7 e8 e9
  intro d hd
  rcases digit_cases d hd with rfl | rfl | rfl | rfl | rfl | rfl | rfl | rfl | rfl <;>
    simp only [Nat.cast_ofNat, Nat.cast_one] <;> omega

theorem coords_perm_grid (l : List Field) (h81 : l.length = 81) (hgrid : ∀ f ∈ l, InGrid f)
    (hnd : (l.map coord).Nodup) : (l.map coord).Perm gridCoords := by
  apply List.Subperm.perm_of_length_le
  · apply List.subperm_of_subset hnd
    intro p hp
    obtain ⟨f, hf, rfl⟩ := List.mem_map.1 hp
    obtain ⟨hr, hc⟩ := hgrid f hf
    exact List.pair_mem_product.2 ⟨mem_digits _ hr, mem_digits _ hc⟩
  · rw [List.length_map, h81]
    exact Nat.le_of_eq (by decide)

set_option maxRecDepth 100000 in
theorem grid_unit_sizes :
    (∀ r ∈ List.range' 1 9, gridCoords.countP (fun p => p.1 = r) = 9) ∧
    (∀ c ∈ List.range' 1 9, gridCoords.countP (fun p => p.2 = c) = 9) ∧
    (∀ box ∈ boxes, gridCoords.countP (fun p => p.1 ∈ box.Rows ∧ p.2 ∈ box.Cols) = 9) := by
  decide

theorem countP_coord (l : List Field) (h81 : l.length = 81) (hgrid : ∀ f ∈ l, InGrid f)
    (hnd : (l.map coord).Nodup) (u : Nat × Nat → Prop) [DecidablePred u] :
    l.countP (fun f => u (coord f)) = gridCoords.countP (fun p => u p) := by
  rw [← (coords_perm_grid l h81 hgrid hnd).countP_eq, List.countP_map]
  rfl

/-- A board of the data model whose cells all hold digits 1..9, none twice in a unit, holds
each digit exactly once in every unit. -/
theorem validGrid_of_consistent (board : Board) (hshape : WellShaped board)
    (hall : ∀ f ∈ board.Fields, 1 ≤ f.Number ∧ f.Number ≤ 9) (hcons : Consistent board) :
    ValidGrid board := by
  obtain ⟨h81, hgrid, hnd⟩ := hshape
  obtain ⟨s1, s2, s3⟩ := grid_unit_sizes
  have hrows : ∀ r ∈ List.range' 1 9, ∀ d ∈ List.range' 1 9, rowCount board r d = 1 := by
    intro r hr
    refine counts_eq_one board.Fields (fun f => f.Row = r) hall ?_ (fun d hd => (hcons d hd).1 r hr)
    have := countP_coord board.Fields h81 hgrid hnd (fun p => p.1 = r)
    rw [s1 r hr] at this
    exact this
  have hcols : ∀ c ∈ List.range' 1 9, ∀ d ∈ List.range' 1 9, columnCount board c d = 1 := by
    intro c hc
    refine counts_eq_one board.Fields (fun f => f.Column = c) hall ?_
      (fun d hd => (hcons d hd).2.1 c hc)
    have := countP_coord board.Fields h81 hgrid hnd (fun p => p.2 = c)
    rw [s2 c hc] at this
    exact this
  have hboxes : ∀ box ∈ boxes, ∀ d ∈ List.range' 1 9, boxCount board box d = 1 := by
    intro box hbox
    refine counts_eq_one board.Fields (fun f => f.Row ∈ box.Rows ∧ f.Column ∈ box.Cols) hall ?_
      (fun d hd => (hcons d hd).2.2 box hbox)
    have := countP_coord board.Fields h81 hgrid hnd (fun p => p.1 ∈ box.Rows ∧ p.2 ∈ box.Cols)
    rw [s3 box hbox] at this
    exact this
  exact fun d hd => ⟨fun r hr => hrows r hr d hd, fun c hc => hcols c hc d hd,
    fun box hbox => hboxes box hbox d hd⟩

theorem zipWith_left_eq_map {α β γ : Type} (h : α → γ) :
    ∀ (l1 : List α) (l2 : List β), l1.length ≤ l2.length →
      List.zipWith (fun a _ => h a) l1 l2 = l1.map h
  | [], _, _ => by simp
  | a :: l1, [], hl => by simp at hl
  | a :: l1, b :: l2, hl => by
    simp only [List.zipWith_cons_cons, List.map_cons, List.cons.injEq, true_and]
    exact zipWith_left_eq_map h l1 l2 (by simpa using hl)

theorem boardOfNumbers_coords (numbers : List Int) (h : numbers.length = 81) :
    (boardOfNumbers numbers).Fields.map coord = gridCoords := by
  unfold boardOfNumbers
  rw [List.map_zipWith]
  have := zipWith_left_eq_map (fun i : Nat => (i / 9 + 1, i % 9 + 1))
    (List.range numbers.length) numbers (by simp)
  simp only [coord]
  rw [this, h]
  decide

/-- A row-major board of 81 numbers is a board of the data model. -/
theorem wellShaped_boardOfNumbers (numbers : List Int) (h : numbers.length = 81) :
    WellShaped (boardOfNumbers numbers) := by
  have hc := boardOfNumbers_coords numbers h
  refine ⟨?_, ?_, ?_⟩
  · have := congrArg List.length hc
    rw [List.length_map] at this
    rw [this]; decide
  · intro f hf
    have hm : coord f ∈ gridCoords := by
      rw [← hc]; exact List.mem_map.2 ⟨f, hf, rfl⟩
    have := List.pair_mem_product.1 hm
    rw [List.mem_range'_1, List.mem_range'_1] at this
    exact ⟨⟨this.1.1, by omega⟩, this.2.1, by omega⟩
  · rw [hc]
    decide

/-! ## Runs of `Solve` on the example boards -/

theorem puzzle_wellShaped : WellShaped (boardOfNumbers puzzleNumbers) :=
  wellShaped_boardOfNumbers _ (by decide)

set_option maxRecDepth 1000000 in
theorem puzzle_consistent : Consistent (boardOfNumbers puzzleNumbers) := by decide

set_option maxRecDepth 1000000 in
/-- From the initial counters the board of `puzzleNumbers` is solved in three sweeps. -/
theorem puzzle_run :
    SolveFuel 3 ⟨0, 0⟩ (boardOfNumbers puzzleNumbers) =
      some (.returned (boardOfNumbers solvedNumbers) none ⟨0, 81⟩) := by decide

set_option maxRecDepth 1000000 in
/-- From the initial counters the board of `deadNumbers` is given up in the 101st sweep,
with the stall counter at 101. -/
theorem dead_run :
    SolveFuel 101 ⟨0, 0⟩ (boardOfNumbers deadNumbers) =
      some (.returned
        ⟨{ Row := 1, Column := 1, Number := 0, PossibleNumbers := [] } ::
          (boardOfNumbers deadNumbers).Fields.drop 1⟩
        (some tooManyIterations) ⟨101, 0⟩) := by decide

/-- C1 (as stated) fails: the board of 81 ones has one cell per place and numbers in 0..9,
`Solve` returns it with success, and its rows do not hold each digit once. -/
theorem Solve_success_not_valid :
    WellShaped onesBoard ∧ NumbersInRange onesBoard ∧
      SolveFuel 1 ⟨0, 0⟩ onesBoard = some (.returned onesBoard none ⟨0, 81⟩) ∧
      ¬ ValidGrid onesBoard := by
  refine ⟨wellShaped_boardOfNumbers _ (by decide), by decide, by decide, by decide⟩

/-- C1 (amended): for every board with one cell per place of the grid, numbers in 0..9 and no
digit 1..9 twice in a row, a column or a box, `Solve` returns, and whenever it returns
success every row, every column and every box of the returned board holds each digit 1..9
exactly once (the returned board still has one cell per place). -/
theorem Solve_success_valid (board : Board) (g : Globals) (hshape : WellShaped board)
    (hrange : NumbersInRange board) (hcons : Consistent board) :
    (∃ fuel b1 e g1, SolveFuel fuel g board = some (.returned b1 e g1)) ∧
      ∀ fuel b1 g1, SolveFuel fuel g board = some (.returned b1 none g1) →
        ValidGrid b1 ∧ WellShaped b1 := by
  obtain ⟨h81, hgrid, hnd⟩ := hshape
  constructor
  · obtain ⟨fuel, b1, g1, h | h⟩ := SolveFuel_returns board g h81 hgrid
    · exact ⟨fuel, b1, _, g1, h⟩
    · exact ⟨fuel, b1, _, g1, h⟩
  · intro fuel b1 g1 hs
    have hinv := SolveFuel_preserves
      (fun l => l.map coord = board.Fields.map coord ∧ NumbersInRange ⟨l⟩ ∧ Consistent ⟨l⟩)
      ?_ fuel g board ⟨rfl, hrange, hcons⟩ b1 none g1 hs
    · obtain ⟨hco, hrg, hcs⟩ := hinv
      have hlen : b1.Fields.length = 81 := by
        have := congrArg List.length hco
        simpa [h81] using this
      have hshape1 : WellShaped b1 :=
        ⟨hlen, inGrid_of_map_coord _ _ hco hgrid, by rw [hco]; exact hnd⟩
      have hfull := SolveFuel_success_filled fuel g board b1 g1 hs
      have hsum := filled_add_empties b1.Fields
      have he : empties b1.Fields = 0 := by omega
      have hall : ∀ f ∈ b1.Fields, 1 ≤ f.Number ∧ f.Number ≤ 9 := by
        intro f hf
        have h0 := (empties_eq_zero _).1 he f hf
        have := hrg f hf
        omega
      exact ⟨validGrid_of_consistent b1 hshape1 hall hcs, hshape1⟩
    · rintro visited field rest cands hN hc ⟨hco, hrg, hcs⟩
      have hgrid1 := inGrid_of_map_coord _ _ hco hgrid
      refine ⟨(map_coord_assign visited rest field cands).trans hco, ?_,
        consistent_assign visited rest field cands hgrid1 hN hc hcs⟩
      intro f hf
      have hold : f ∈ visited ++ field :: rest ∨ f = assign field cands := by
        simp only [List.mem_append, List.mem_cons] at hf ⊢
        tauto
      rcases hold with hold | rfl
      · exact hrg f hold
      · have hfield : field ∈ visited ++ field :: rest := by simp
        rcases assign_number ⟨visited ++ field :: rest⟩ field cands (hgrid1 field hfield)
          (uintCoords_of_inGrid _ hgrid1) hc with h | ⟨n, -, -, hnum, hcand⟩
        · rw [h, hN]; omega
        · have := hcand.1
          rw [hnum]; omega

set_option maxRecDepth 1000000 in
theorem Solve_success_valid_witness :
    (WellShaped (boardOfNumbers puzzleNumbers) ∧ NumbersInRange (boardOfNumbers puzzleNumbers) ∧
      Consistent (boardOfNumbers puzzleNumbers)) ∧
      SolveFuel 3 ⟨0, 0⟩ (boardOfNumbers puzzleNumbers) =
        some (.returned (boardOfNumbers solvedNumbers) none ⟨0, 81⟩) ∧
      ValidGrid (boardOfNumbers solvedNumbers) :=
  have h1 : WellShaped (boardOfNumbers puzzleNumbers) := puzzle_wellShaped
  have h2 : NumbersInRange (boardOfNumbers puzzleNumbers) := by decide
  have h3 : Consistent (boardOfNumbers puzzleNumbers) := puzzle_consistent
  have h4 : SolveFuel 3 ⟨0, 0⟩ (boardOfNumbers puzzleNumbers) =
      some (.returned (boardOfNumbers solvedNumbers) none ⟨0, 81⟩) := puzzle_run
  ⟨⟨h1, h2, h3⟩, h4,
    ((Solve_success_valid (boardOfNumbers puzzleNumbers) ⟨0, 0⟩ h1 h2 h3).2 3 _ _ h4).1⟩

/-- C3: on every board of 81 cells of the grid, whatever the numbers in the cells and whatever
the value the stall counter starts with, `Solve` returns after finitely many sweeps, either
with success or with the error "too many iterations since last solve". -/
theorem Solve_terminates (board : Board) (g : Globals) (h81 : board.Fields.length = 81)
    (hgrid : ∀ f ∈ board.Fields, InGrid f) :
    ∃ fuel b1 g1, SolveFuel fuel g board = some (.returned b1 none g1) ∨
      SolveFuel fuel g board = some (.returned b1 (some tooManyIterations) g1) :=
  SolveFuel_returns board g h81 hgrid

theorem Solve_terminates_witness :
    (emptyBoard.Fields.length = 81 ∧ ∀ f ∈ emptyBoard.Fields, InGrid f) ∧
      ∃ fuel b1 g1,
        SolveFuel fuel ⟨9223372036854775807, 0⟩ emptyBoard = some (.returned b1 none g1) ∨
        SolveFuel fuel ⟨9223372036854775807, 0⟩ emptyBoard =
          some (.returned b1 (some tooManyIterations) g1) :=
  ⟨⟨by decide, by decide⟩,
    Solve_terminates emptyBoard ⟨9223372036854775807, 0⟩ (by decide) (by decide)⟩

theorem emptyBoard_numbers : ∀ f ∈ emptyBoard.Fields, f.Number = 0 := by decide

theorem candidates_emptyBoard (f : Field) : candidates emptyBoard f = List.range' 1 9 := by
  unfold candidates
  rw [List.filter_eq_self]
  intro d hd
  rw [List.mem_range'_1] at hd
  rw [decide_eq_true_eq]
  refine ⟨by omega, ?_⟩
  intro g hg _
  rw [emptyBoard_numbers g hg]
  omega

/-- Witness for C4: the board of 81 empty cells is an input of the kind described (every
cell has the nine candidates 1..9), so `Solve` returns the stall error on it. -/
theorem Solve_stuck_board_witness :
    (emptyBoard.Fields.length = 81 ∧ (∀ f ∈ emptyBoard.Fields, InGrid f) ∧
      (∃ f ∈ emptyBoard.Fields, f.Number = 0) ∧
      ∀ f ∈ emptyBoard.Fields, f.Number = 0 → (candidates emptyBoard f).length ≠ 1) ∧
    ∃ fuel b1 g1, SolveFuel fuel ⟨0, 0⟩ emptyBoard =
        some (.returned b1 (some tooManyIterations) g1) ∧
      b1.Fields.map (fun f => f.Number) = emptyBoard.Fields.map (fun f => f.Number) ∧
      b1.Fields.map key = emptyBoard.Fields.map key :=
  have h1 : emptyBoard.Fields.length = 81 := by decide
  have h2 : ∀ f ∈ emptyBoard.Fields, InGrid f := by decide
  have h3 : ∃ f ∈ emptyBoard.Fields, f.Number = 0 := by decide
  have h4 : ∀ f ∈ emptyBoard.Fields, f.Number = 0 → (candidates emptyBoard f).length ≠ 1 := by
    intro f _ _
    rw [candidates_emptyBoard]
    decide
  ⟨⟨h1, h2, h3, h4⟩, Solve_stuck_board emptyBoard ⟨0, 0⟩ h1 h2 h3 h4⟩

/-- C5 fails on the code: the outcome of `Solve` on a board depends on the stall counter an
earlier call left.  A first call, from the initial counters, on the board of `deadNumbers`
returns the stall error and leaves the stall counter at 101.  The board of `puzzleNumbers`
is solved when `Solve` starts from the initial counters, and the same board is returned
unsolved with the stall error when `Solve` starts from the counters the first call left. -/
theorem Solve_depends_on_earlier_call :
    SolveFuel 101 ⟨0, 0⟩ (boardOfNumbers deadNumbers) =
        some (.returned
          ⟨{ Row := 1, Column := 1, Number := 0, PossibleNumbers := [] } ::
            (boardOfNumbers deadNumbers).Fields.drop 1⟩
          (some tooManyIterations) ⟨101, 0⟩) ∧
      summary (SolveFuel 3 ⟨0, 0⟩ (boardOfNumbers puzzleNumbers)) =
        some (solvedNumbers, none, 0) ∧
      summary (SolveFuel 3 ⟨101, 0⟩ (boardOfNumbers puzzleNumbers)) =
        some (puzzleNumbers, some tooManyIterations, 102) := by
  refine ⟨dead_run, by decide, by decide⟩

theorem Solve_full_board_witness :
    (onesBoard.Fields.length = 81 ∧ ∀ f ∈ onesBoard.Fields, f.Number ≠ 0) ∧
      SolveFuel 1 ⟨57, 3⟩ onesBoard = some (.returned onesBoard none
        { iterationsSinceLastSolve := 57, solvedNumberCount := 81 }) :=
  ⟨⟨by decide, by decide⟩, Solve_full_board onesBoard ⟨57, 3⟩ (by decide) (by decide)⟩

set_option maxRecDepth 1000000 in
theorem Solve_keeps_filled_witness :
    SolveFuel 3 ⟨0, 0⟩ (boardOfNumbers puzzleNumbers) =
        some (.returned (boardOfNumbers solvedNumbers) none ⟨0, 81⟩) ∧
      List.Forall₂ (fun f f1 => f.Number ≠ 0 → f1.Number = f.Number)
        (boardOfNumbers puzzleNumbers).Fields (boardOfNumbers solvedNumbers).Fields :=
  have h : SolveFuel 3 ⟨0, 0⟩ (boardOfNumbers puzzleNumbers) =
      some (.returned (boardOfNumbers solvedNumbers) none ⟨0, 81⟩) := puzzle_run
  ⟨h, Solve_keeps_filled 3 ⟨0, 0⟩ _ _ _ _ h⟩

set_option maxRecDepth 1000000 in
theorem Solve_one_empty_cell_witness :
    ((holePre ++ holeField :: holePost).length = 81 ∧
      (∀ f ∈ holePre ++ holeField :: holePost, InGrid f) ∧ holeField.Number = 0 ∧
      (∀ f ∈ holePre, f.Number ≠ 0) ∧ (∀ f ∈ holePost, f.Number ≠ 0) ∧
      candidates ⟨holePre ++ holeField :: holePost⟩ holeField = [9]) ∧
    holePre ++ holeField :: holePost = (boardOfNumbers holeNumbers).Fields ∧
    SolveFuel 2 ⟨0, 0⟩ ⟨holePre ++ holeField :: holePost⟩ =
      some (.returned
        ⟨holePre ++ { holeField with Number := ((9 : Nat) : Int), PossibleNumbers := [] } ::
          holePost⟩
        none { iterationsSinceLastSolve := 0, solvedNumberCount := 81 }) :=
  ⟨⟨by decide, by decide, by decide, by decide, by decide, by decide⟩, by decide,
    Solve_one_empty_cell holePre holePost holeField 9 ⟨0, 0⟩ (by decide) (by decide) (by decide)
      (by decide) (by decide) (by decide)⟩

set_option maxRecDepth 1000000 in
theorem Solve_sound_witness :
    (WellShaped (boardOfNumbers puzzleNumbers) ∧ IsSolution solvedDigit ∧
      ∀ f ∈ (boardOfNumbers puzzleNumbers).Fields, f.Number ≠ 0 →
        f.Number = solvedDigit f.Row f.Column) ∧
    SolveFuel 3 ⟨0, 0⟩ (boardOfNumbers puzzleNumbers) =
      some (.returned (boardOfNumbers solvedNumbers) none ⟨0, 81⟩) ∧
    ∀ f ∈ (boardOfNumbers solvedNumbers).Fields, f.Number = solvedDigit f.Row f.Column :=
  have h1 : WellShaped (boardOfNumbers puzzleNumbers) := puzzle_wellShaped
  have h2 : IsSolution solvedDigit := by decide
  have h3 : ∀ f ∈ (boardOfNumbers puzzleNumbers).Fields, f.Number ≠ 0 →
      f.Number = solvedDigit f.Row f.Column := by decide
  have h4 : SolveFuel 3 ⟨0, 0⟩ (boardOfNumbers puzzleNumbers) =
      some (.returned (boardOfNumbers solvedNumbers) none ⟨0, 81⟩) := puzzle_run
  ⟨⟨h1, h2, h3⟩, h4,
    ((Solve_sound (boardOfNumbers puzzleNumbers) ⟨0, 0⟩ solvedDigit h1 h2 h3).2 3 _ _ _ h4).2.2
      rfl⟩

/-- C9: the candidate list `Solve` computes for a cell of the grid is strictly ascending (so
without repetition) and holds exactly the digits 1..9 for which `HasNumberInRow`,
`HasNumberInColumn` and `HasNumberInBox` are all false on the board of that moment; when the
rows and columns of the board are `uint` values these are exactly the digits 1..9 that no
cell of the row, of the column or of the box of the cell holds. -/
theorem possibleNumbers_spec (board : Board) (field : Field) (h : InGrid field) :
    ∃ cands, possibleNumbers board field = some cands ∧ cands.Sorted (· < ·) ∧
      (∀ n, n ∈ cands ↔ (1 ≤ n ∧ n ≤ 9) ∧ HasNumberInRow board field n = false ∧
        HasNumberInColumn board field n = false ∧ HasNumberInBox board field n = some false) ∧
      (UintCoords board → ∀ n, n ∈ cands ↔ IsCandidate board field n) := by
  obtain ⟨box, hbox, -, -, -⟩ := GetBoxForField_ok field h
  refine ⟨_, possibleNumbers_eq board field box hbox, ?_, ?_, ?_⟩
  · exact List.Pairwise.filter _ (List.pairwise_lt_range' 1 9)
  · intro n
    simp only [List.mem_filter, List.mem_range'_1, fits, HasNumberInBox, hbox, Bool.and_eq_true,
      Bool.not_eq_true', Option.some.injEq]
    constructor
    · rintro ⟨⟨h1, h2⟩, ⟨h3, h4⟩, h5⟩
      exact ⟨⟨h1, by omega⟩, h5, h4, h3⟩
    · rintro ⟨⟨h1, h2⟩, h5, h4, h3⟩
      exact ⟨⟨h1, by omega⟩, ⟨h3, h4⟩, h5⟩
  · intro hu n
    have h1 := possibleNumbers_eq board field box hbox
    rw [possibleNumbers_eq_candidates board field h hu] at h1
    simp only [Option.some.injEq] at h1
    rw [← h1]
    simp only [candidates, List.mem_filter, List.mem_range'_1, decide_eq_true_eq]
    constructor
    · exact fun hn => hn.2
    · exact fun hn => ⟨by have := hn.1; omega, hn⟩

theorem possibleNumbers_spec_witness :
    InGrid { Row := 1, Column := 1, Number := 0, PossibleNumbers := [] } ∧
    ∃ cands, possibleNumbers (boardOfNumbers puzzleNumbers)
        { Row := 1, Column := 1, Number := 0, PossibleNumbers := [] } = some cands ∧
      cands.Sorted (· < ·) ∧
      (∀ n, n ∈ cands ↔ (1 ≤ n ∧ n ≤ 9) ∧
        HasNumberInRow (boardOfNumbers puzzleNumbers)
          { Row := 1, Column := 1, Number := 0, PossibleNumbers := [] } n = false ∧
        HasNumberInColumn (boardOfNumbers puzzleNumbers)
          { Row := 1, Column := 1, Number := 0, PossibleNumbers := [] } n = false ∧
        HasNumberInBox (boardOfNumbers puzzleNumbers)
          { Row := 1, Column := 1, Number := 0, PossibleNumbers := [] } n = some false) ∧
      (UintCoords (boardOfNumbers puzzleNumbers) → ∀ n, n ∈ cands ↔
        IsCandidate (boardOfNumbers puzzleNumbers)
          { Row := 1, Column := 1, Number := 0, PossibleNumbers := [] } n) :=
  ⟨by decide, possibleNumbers_spec (boardOfNumbers puzzleNumbers)
    { Row := 1, Column := 1, Number := 0, PossibleNumbers := [] } (by decide)⟩

theorem HasNumberInRow_HasNumberInColumn_iff_witness :
    (3 : Nat) < 9223372036854775808 ∧
    ((HasNumberInRow (boardOfNumbers puzzleNumbers)
        { Row := 1, Column := 1, Number := 0, PossibleNumbers := [] } 3 = true ↔
      ∃ f ∈ (boardOfNumbers puzzleNumbers).Fields, f.Row = 1 ∧ f.Number = ((3 : Nat) : Int)) ∧
    (HasNumberInColumn (boardOfNumbers puzzleNumbers)
        { Row := 1, Column := 1, Number := 0, PossibleNumbers := [] } 3 = true ↔
      ∃ f ∈ (boardOfNumbers puzzleNumbers).Fields, f.Column = 1 ∧
        f.Number = ((3 : Nat) : Int))) :=
  ⟨by decide, HasNumberInRow_HasNumberInColumn_iff (boardOfNumbers puzzleNumbers)
    { Row := 1, Column := 1, Number := 0, PossibleNumbers := [] } 3 (by decide)⟩

theorem getBoxLoop_error (field : Field) (l : List Box)
    (h : ∀ box ∈ l, (contains box.Cols (toInt field.Column) &&
      contains box.Rows (toInt field.Row)) = false) :
    getBoxLoop field l = .error boxNotFound := by
  induction l with
  | nil => rfl
  | cons box rest ih =>
    rw [getBoxLoop, h box (by simp)]
    simpa using ih (fun b hb => h b (by simp [hb]))

theorem boxes_members : ∀ box ∈ boxes,
    (∀ a ∈ box.Rows, 1 ≤ a ∧ a ≤ 9) ∧ (∀ a ∈ box.Cols, 1 ≤ a ∧ a ≤ 9) := by
  decide

theorem GetBoxForField_error (field : Field)
    (huint : field.Row < 18446744073709551616 ∧ field.Column < 18446744073709551616)
    (h : ¬ InGrid field) : GetBoxForField field = .error boxNotFound := by
  apply getBoxLoop_error
  intro box hbox
  obtain ⟨hr, hc⟩ := boxes_members box hbox
  rw [Bool.and_eq_false_iff]
  by_cases hcol : 1 ≤ field.Column ∧ field.Column ≤ 9
  · right
    rw [← Bool.not_eq_true, contains_toInt _ _ (fun a ha => by have := hr a ha; omega) huint.1]
    intro hmem
    exact h ⟨hr _ hmem, hcol⟩
  · left
    rw [← Bool.not_eq_true, contains_toInt _ _ (fun a ha => by have := hc a ha; omega) huint.2]
    intro hmem
    exact hcol (hc _ hmem)

/-- C11: for every board whose cells hold `uint` rows and columns, every field with Row and
Column in 1..9 and every number `n` that fits a non-negative `int` (every digit does),
`HasNumberInBox` returns (it does not take the `log.Fatal` exit), and it returns true iff
some cell of the board lies in the grid and in the same 3x3 box as the field and has
Number `n`. -/
theorem HasNumberInBox_iff (board : Board) (field : Field) (n : Nat) (hfield : InGrid field)
    (hu : UintCoords board) (hn : n < 9223372036854775808) :
    ∃ b, HasNumberInBox board field n = some b ∧
      (b = true ↔ ∃ f ∈ board.Fields, SameBox f field ∧ f.Number = (n : Int)) := by
  refine ⟨_, by rw [HasNumberInBox, GetBoxForField_eq_boxAt field hfield], ?_⟩
  rw [hasNumberInBoxLoop_iff, toInt_of_lt n hn]
  constructor
  · rintro ⟨f, hf, hin, hnum⟩
    exact ⟨f, hf, (inBox_iff_sameBox field hfield f (hu f hf).1 (hu f hf).2).1 hin, hnum⟩
  · rintro ⟨f, hf, hs, hnum⟩
    exact ⟨f, hf, (inBox_iff_sameBox field hfield f (hu f hf).1 (hu f hf).2).2 hs, hnum⟩

/-- C12: the table `boxes` has nine entries; for every row and column in 1..9 exactly one
entry has the row among its Rows and the column among its Cols (also by the test `contains`
of the code), and every entry covers exactly 9 of the 81 places of the grid. -/
theorem boxes_partition :
    boxes.length = 9 ∧
    (∀ r ∈ List.range' 1 9, ∀ c ∈ List.range' 1 9,
      boxes.countP (fun box => r ∈ box.Rows ∧ c ∈ box.Cols) = 1 ∧
      boxes.countP (fun box => contains box.Rows (toInt r) && contains box.Cols (toInt c)) = 1) ∧
    (∀ box ∈ boxes, gridCoords.countP (fun p => p.1 ∈ box.Rows ∧ p.2 ∈ box.Cols) = 9) := by
  refine ⟨rfl, by decide, grid_unit_sizes.2.2⟩

theorem boxes_partition_witness :
    boxes.countP (fun box => 5 ∈ box.Rows ∧ 7 ∈ box.Cols) = 1 ∧
      boxes.countP (fun box => contains box.Rows (toInt 5) && contains box.Cols (toInt 7)) = 1 :=
  boxes_partition.2.1 5 (by decide) 7 (by decide)

/-- C13: for a field with `uint` Row and Column, `GetBoxForField` returns the error "could
not find correct box for field" iff the Row or the Column lies outside 1..9; for a field
with both in 1..9 it returns a box of the table, and `HasNumberInBox` never takes its
`log.Fatal` exit. -/
theorem GetBoxForField_error_iff (field : Field)
    (huint : field.Row < 18446744073709551616 ∧ field.Column < 18446744073709551616) :
    (GetBoxForField field = .error boxNotFound ↔ ¬ InGrid field) ∧
    (InGrid field → (∃ box ∈ boxes, GetBoxForField field = .ok box) ∧
      ∀ (board : Board) (n : Nat), HasNumberInBox board field n ≠ none) := by
  refine ⟨⟨?_, GetBoxForField_error field huint⟩, ?_⟩
  · intro herr hin
    obtain ⟨box, hbox, -⟩ := GetBoxForField_ok field hin
    rw [hbox] at herr
    exact absurd herr (by simp)
  · intro hin
    obtain ⟨box, hbox, hmem, -⟩ := GetBoxForField_ok field hin
    refine ⟨⟨box, hmem, hbox⟩, ?_⟩
    intro board n
    simp [HasNumberInBox, hbox]

set_option maxRecDepth 100000 in
theorem boxByIndex_table : ∀ r ∈ List.range' 1 9, ∀ c ∈ List.range' 1 9,
    boxByIndex r c = some (boxAt ((r - 1) / 3) ((c - 1) / 3)) := by
  decide

/-- C19: for every field with Row `r` and Column `c` in 1..9 the linear scan of
`GetBoxForField` returns the entry of `boxes` at index `3 * ((r - 1) / 3) + (c - 1) / 3`,
which is the box with rows `3 * ((r - 1) / 3) + 1, + 2, + 3` and columns
`3 * ((c - 1) / 3) + 1, + 2, + 3`. -/
theorem GetBoxForField_eq_boxByIndex (field : Field) (h : InGrid field) :
    ∃ box, boxByIndex field.Row field.Column = some box ∧ GetBoxForField field = .ok box ∧
      box.Rows = [3 * ((field.Row - 1) / 3) + 1, 3 * ((field.Row - 1) / 3) + 2,
        3 * ((field.Row - 1) / 3) + 3] ∧
      box.Cols = [3 * ((field.Column - 1) / 3) + 1, 3 * ((field.Column - 1) / 3) + 2,
        3 * ((field.Column - 1) / 3) + 3] := by
  refine ⟨boxAt ((field.Row - 1) / 3) ((field.Column - 1) / 3), ?_,
    GetBoxForField_eq_boxAt field h, rfl, rfl⟩
  exact boxByIndex_table field.Row (mem_digits _ h.1) field.Column (mem_digits _ h.2)

theorem HasNumberInBox_iff_witness :
    (InGrid { Row := 1, Column := 1, Number := 0, PossibleNumbers := [] } ∧
      UintCoords (boardOfNumbers puzzleNumbers) ∧ (3 : Nat) < 9223372036854775808) ∧
    ∃ b, HasNumberInBox (boardOfNumbers puzzleNumbers)
        { Row := 1, Column := 1, Number := 0, PossibleNumbers := [] } 3 = some b ∧
      (b = true ↔ ∃ f ∈ (boardOfNumbers puzzleNumbers).Fields,
        SameBox f { Row := 1, Column := 1, Number := 0, PossibleNumbers := [] } ∧
          f.Number = ((3 : Nat) : Int)) :=
  have h2 : UintCoords (boardOfNumbers puzzleNumbers) :=
    uintCoords_of_inGrid _ (by decide)
  ⟨⟨by decide, h2, by decide⟩, HasNumberInBox_iff (boardOfNumbers puzzleNumbers)
    { Row := 1, Column := 1, Number := 0, PossibleNumbers := [] } 3 (by decide) h2 (by decide)⟩

theorem GetBoxForField_error_iff_witness :
    ((0 : Nat) < 18446744073709551616 ∧ (5 : Nat) < 18446744073709551616) ∧
    (GetBoxForField { Row := 0, Column := 5, Number := 0, PossibleNumbers := [] } =
        .error boxNotFound ↔
      ¬ InGrid { Row := 0, Column := 5, Number := 0, PossibleNumbers := [] }) ∧
    GetBoxForField { Row := 0, Column := 5, Number := 0, PossibleNumbers := [] } =
      .error boxNotFound :=
  have h := GetBoxForField_error_iff { Row := 0, Column := 5, Number := 0, PossibleNumbers := [] }
    ⟨by decide, by decide⟩
  ⟨⟨by decide, by decide⟩, h.1, h.1.2 (by decide)⟩

theorem GetBoxForField_eq_boxByIndex_witness :
    InGrid { Row := 5, Column := 7, Number := 0, PossibleNumbers := [] } ∧
    ∃ box, boxByIndex 5 7 = some box ∧
      GetBoxForField { Row := 5, Column := 7, Number := 0, PossibleNumbers := [] } = .ok box ∧
      box.Rows = [3 * ((5 - 1) / 3) + 1, 3 * ((5 - 1) / 3) + 2, 3 * ((5 - 1) / 3) + 3] ∧
      box.Cols = [3 * ((7 - 1) / 3) + 1, 3 * ((7 - 1) / 3) + 2, 3 * ((7 - 1) / 3) + 3] :=
  ⟨by decide, GetBoxForField_eq_boxByIndex
    { Row := 5, Column := 7, Number := 0, PossibleNumbers := [] } (by decide)⟩

theorem digit_utf8Size (c : Char) (h : c.isDigit = true) : c.utf8Size = 1 := by
  unfold Char.isDigit at h
  unfold Char.utf8Size
  simp only [Bool.and_eq_true, decide_eq_true_eq] at h
  have h2 : c.val ≤ 57 := h.2
  have : c.val ≤ 127 := Nat.le_trans (show c.val.toNat ≤ 57 from h2) (by decide)
  simp [this]

theorem utf8ByteSize_go_digits (cs : List Char) (h : ∀ c ∈ cs, c.isDigit = true) :
    String.utf8ByteSize.go cs = cs.length := by
  induction cs with
  | nil => rfl
  | cons c cs ih =>
    rw [String.utf8ByteSize.go, ih (fun x hx => h x (by simp [hx])), digit_utf8Size c (h c (by simp))]
    simp

theorem utf8ByteSize_digits (s : String) (h : ∀ c ∈ s.data, c.isDigit = true) :
    s.utf8ByteSize = s.data.length := by
  cases s with
  | mk cs => exact utf8ByteSize_go_digits cs h

theorem genPos_succ (n : Nat) :
    genPos (n + 1) = (n / 9 + 1, n % 9 + 1) := by
  simp [genPos]

theorem genPos_step (n row col : Nat) (h : (row, col) = genPos n) :
    (if col + 1 > 9 then row + 1 else row) = n / 9 + 1 ∧
      (if col + 1 > 9 then 1 else col + 1) = n % 9 + 1 := by
  unfold genPos at h
  by_cases hn : n = 0
  · rw [if_pos hn] at h
    simp only [Prod.mk.injEq] at h
    obtain ⟨rfl, rfl⟩ := h
    subst hn
    simp
  · rw [if_neg hn] at h
    simp only [Prod.mk.injEq] at h
    obtain ⟨rfl, rfl⟩ := h
    constructor <;> split <;> omega

theorem parseInt_digit (isPrint : Char → Bool) (c : Char) (h : c.isDigit = true) :
    parseInt isPrint c = .ok ((c.toNat : Int) - 48) := by
  simp [parseInt, h]

theorem parseInt_not_digit (isPrint : Char → Bool) (c : Char) (h : ¬ c.isDigit = true) :
    parseInt isPrint c = .error (parseError isPrint c) := by
  simp [parseInt, h]

theorem length_cellsFrom (chars : List Char) : ∀ n, (cellsFrom n chars).length = chars.length := by
  induction chars with
  | nil => intro n; rfl
  | cons c rest ih => intro n; simp [cellsFrom, ih]

/-- A line of digits adds its cells, in row-major places, and leaves `row` and `col` at the
place of the last cell. -/
theorem lineLoop_digits (isPrint : Char → Bool) (chars : List Char) :
    ∀ (st : GenState), (∀ c ∈ chars, c.isDigit = true) →
      (st.row, st.col) = genPos st.board.Fields.length →
      lineLoop isPrint chars st =
        ({ board := ⟨st.board.Fields ++ cellsFrom st.board.Fields.length chars⟩,
           row := (genPos (st.board.Fields.length + chars.length)).1,
           col := (genPos (st.board.Fields.length + chars.length)).2 }, none) := by
  induction chars with
  | nil =>
    intro st _ hpos
    simp only [lineLoop, cellsFrom, List.append_nil, List.length_nil, Nat.add_zero, ← hpos]
  | cons c rest ih =>
    intro st hd hpos
    obtain ⟨h1, h2⟩ := genPos_step _ _ _ hpos
    rw [lineLoop, parseInt_digit isPrint c (hd c (by simp))]
    simp only [h1, h2]
    rw [ih _ (fun x hx => hd x (by simp [hx])) (by simp [genPos_succ])]
    simp only [List.length_append, List.length_singleton, List.length_cons, cellsFrom,
      List.append_assoc, List.singleton_append]
    simp only [List.length_nil, Nat.zero_add]
    rw [Nat.add_assoc, Nat.add_comm 1 rest.length]

/-- A line that passes the loop without error holds digits only. -/
theorem lineLoop_ok_digits (isPrint : Char → Bool) (chars : List Char) :
    ∀ (st st1 : GenState), lineLoop isPrint chars st = (st1, none) →
      ∀ c ∈ chars, c.isDigit = true := by
  induction chars with
  | nil => intro st st1 _ c hc; simp at hc
  | cons c rest ih =>
    intro st st1 h x hx
    by_cases hd : c.isDigit = true
    · rw [lineLoop, parseInt_digit isPrint c hd] at h
      rcases List.mem_cons.1 hx with rfl | hx
      · exact hd
      · exact ih _ _ h x hx
    · rw [lineLoop, parseInt_not_digit isPrint c hd] at h
      simp at h

theorem cellsFrom_append (a b : List Char) :
    ∀ n, cellsFrom n (a ++ b) = cellsFrom n a ++ cellsFrom (n + a.length) b := by
  induction a with
  | nil => intro n; simp [cellsFrom]
  | cons c a ih =>
    intro n
    have h1 : n + (a.length + 1) = n + 1 + a.length := by omega
    rw [List.cons_append, cellsFrom, cellsFrom, ih, List.length_cons, h1]
    rfl

theorem cellsFrom_getElem? (chars : List Char) :
    ∀ (n i : Nat), (cellsFrom n chars)[i]? = chars[i]?.map (fun c =>
      { Row := (n + i) / 9 + 1, Column := (n + i) % 9 + 1, Number := (c.toNat : Int) - 48,
        PossibleNumbers := [] }) := by
  induction chars with
  | nil => intro n i; simp [cellsFrom]
  | cons c rest ih =>
    intro n i
    cases i with
    | zero => simp [cellsFrom]
    | succ i =>
      simp only [cellsFrom, List.getElem?_cons_succ, ih]
      rw [Nat.add_assoc, Nat.add_comm 1 i]

theorem map_coord_cellsFrom (chars : List Char) :
    ∀ n, (cellsFrom n chars).map coord =
      (List.range' n chars.length).map (fun i => (i / 9 + 1, i % 9 + 1)) := by
  induction chars with
  | nil => intro n; rfl
  | cons c rest ih =>
    intro n
    simp only [cellsFrom, List.map_cons, List.length_cons, List.range'_succ, ih, coord]

theorem flatten_getElem?_of_length_nine (ls : List (List Char)) (h : ∀ l ∈ ls, l.length = 9) :
    ∀ i, ls.flatten[i]? = (ls[i / 9]?).bind (fun l => l[i % 9]?) := by
  induction ls with
  | nil => intro i; simp
  | cons l ls ih =>
    intro i
    have hl : l.length = 9 := h l (by simp)
    rw [List.flatten_cons]
    by_cases hi : i < 9
    · rw [List.getElem?_append_left (by omega)]
      have h0 : i / 9 = 0 := by omega
      have h1 : i % 9 = i := by omega
      simp [h0, h1]
    · rw [List.getElem?_append_right (by omega), ih (fun x hx => h x (by simp [hx])), hl]
      have h0 : i / 9 = (i - 9) / 9 + 1 := by omega
      have h1 : (i - 9) % 9 = i % 9 := by omega
      rw [h0, h1, List.getElem?_cons_succ]

/-- Lines that pass the scanner loop without error are lines of nine digits, and their
cells are appended in row-major places. -/
theorem scanLoop_ok (isPrint : Char → Bool) (lines : List String) :
    ∀ (st st1 : GenState), (st.row, st.col) = genPos st.board.Fields.length →
      scanLoop isPrint lines st = (st1, none) →
      (∀ line ∈ lines, line.data.length = 9 ∧ ∀ c ∈ line.data, c.isDigit = true) ∧
      st1.board.Fields = st.board.Fields ++
        cellsFrom st.board.Fields.length (lines.map String.data).flatten := by
  induction lines with
  | nil =>
    intro st st1 _ h
    simp only [scanLoop, Prod.mk.injEq, and_true] at h
    subst h
    simp [cellsFrom]
  | cons line rest ih =>
    intro st st1 hpos h
    rw [scanLoop] at h
    by_cases hlen : line.utf8ByteSize ≠ 9
    · rw [if_pos hlen] at h
      simp at h
    · rw [if_neg hlen] at h
      rw [not_not] at hlen
      cases hl : lineLoop isPrint line.data st with
      | mk st2 e =>
        rw [hl] at h
        cases e with
        | some err => simp at h
        | none =>
          simp only [] at h
          have hdig := lineLoop_ok_digits isPrint _ _ _ hl
          have h9 : line.data.length = 9 := by
            rw [← utf8ByteSize_digits line hdig]; exact hlen
          rw [lineLoop_digits isPrint _ _ hdig hpos] at hl
          simp only [Prod.mk.injEq, and_true] at hl
          subst hl
          obtain ⟨ih1, ih2⟩ := ih _ st1 (by simp [length_cellsFrom]) h
          refine ⟨?_, ?_⟩
          · intro l hmem
            rcases List.mem_cons.1 hmem with rfl | hmem
            · exact ⟨h9, hdig⟩
            · exact ih1 l hmem
          · rw [ih2]
            simp only [List.map_cons, List.flatten_cons, cellsFrom_append, List.length_append,
              length_cellsFrom, List.append_assoc]

/-- A successful `GenerateBoardFromFile`: the lines are lines of nine digits, together 81
characters, and the board holds their cells in row-major places. -/
theorem GenerateBoardFromFile_ok (isPrint : Char → Bool) (lines : List String) (board : Board)
    (h : GenerateBoardFromFile isPrint (.ok lines) = (board, none)) :
    (∀ line ∈ lines, line.data.length = 9 ∧ ∀ c ∈ line.data, c.isDigit = true) ∧
      board.Fields = cellsFrom 0 (lines.map String.data).flatten ∧
      (lines.map String.data).flatten.length = 81 := by
  simp only [GenerateBoardFromFile] at h
  cases hs : scanLoop isPrint lines { board := ⟨[]⟩, row := 1, col := 0 } with
  | mk st e =>
    rw [hs] at h
    cases e with
    | some err => simp at h
    | none =>
      simp only [] at h
      obtain ⟨h1, h2⟩ := scanLoop_ok isPrint lines _ st rfl hs
      simp only [List.nil_append, List.length_nil] at h2
      by_cases hlen : st.board.Fields.length ≠ 81
      · rw [if_pos hlen] at h
        simp at h
      · rw [if_neg hlen] at h
        rw [not_not] at hlen
        simp only [Prod.mk.injEq, and_true] at h
        subst h
        refine ⟨h1, h2, ?_⟩
        rw [h2, length_cellsFrom] at hlen
        exact hlen

theorem mainFuel_of_error (isPrint : Char → Bool) (fuel : Nat)
    (file : Except String (List String)) (board : Board) (err : String)
    (h : GenerateBoardFromFile isPrint file = (board, some err)) :
    mainFuel isPrint fuel file = some (.fatal err) := by
  rw [mainFuel, h]

theorem sum_length_eq (lines : List String) :
    (lines.map String.length).sum = (lines.map String.data).flatten.length := by
  rw [List.length_flatten, List.map_map]
  rfl

set_option maxRecDepth 100000 in
theorem rowMajor_coords : (List.range' 0 81).map (fun i => (i / 9 + 1, i % 9 + 1)) = gridCoords := by
  decide

set_option maxRecDepth 100000 in
theorem gridCoords_once : ∀ r ∈ List.range' 1 9, ∀ c ∈ List.range' 1 9,
    gridCoords.countP (fun p => p.1 = r ∧ p.2 = c) = 1 := by
  decide

/-- What holds of the cell count in terms of the lines the scanner yields: without an error
the board has exactly 81 cells; yielded lines that do not hold exactly 81 characters make
`GenerateBoardFromFile` return an error; and with any error of `GenerateBoardFromFile` the
program `main` ends in `log.Fatal` with that error before `Solve` runs. -/
theorem GenerateBoardFromFile_cell_count (isPrint : Char → Bool)
    (file : Except String (List String)) :
    (∀ board, GenerateBoardFromFile isPrint file = (board, none) → board.Fields.length = 81) ∧
    (∀ lines, file = .ok lines → (lines.map String.length).sum ≠ 81 →
      ∃ board err, GenerateBoardFromFile isPrint file = (board, some err)) ∧
    (∀ board err, GenerateBoardFromFile isPrint file = (board, some err) →
      ∀ fuel, mainFuel isPrint fuel file = some (.fatal err)) := by
  refine ⟨?_, ?_, fun board err h fuel => mainFuel_of_error isPrint fuel file board err h⟩
  · intro board h
    cases file with
    | error e => simp [GenerateBoardFromFile] at h
    | ok lines =>
      obtain ⟨-, h2, h3⟩ := GenerateBoardFromFile_ok isPrint lines board h
      rw [h2, length_cellsFrom, h3]
  · rintro lines rfl hsum
    cases hg : GenerateBoardFromFile isPrint (.ok lines) with
    | mk board e =>
      cases e with
      | some err => exact ⟨board, err, rfl⟩
      | none =>
        obtain ⟨-, -, h3⟩ := GenerateBoardFromFile_ok isPrint lines board hg
        rw [sum_length_eq, h3] at hsum
        exact absurd rfl hsum

/-- C15: a board `GenerateBoardFromFile` builds without error has 81 cells in row-major
order: the cell at index `i` has Row `i / 9 + 1`, Column `i % 9 + 1` and as Number the
decimal digit at position `i % 9` of line `i / 9`; every pair of a row and a column in 1..9
is the place of exactly one cell. -/
theorem GenerateBoardFromFile_row_major (isPrint : Char → Bool) (lines : List String)
    (board : Board) (h : GenerateBoardFromFile isPrint (.ok lines) = (board, none)) :
    board.Fields.length = 81 ∧
    (∀ i, i < 81 → ∃ f line c, board.Fields[i]? = some f ∧ f.Row = i / 9 + 1 ∧
      f.Column = i % 9 + 1 ∧ f.PossibleNumbers = [] ∧ lines[i / 9]? = some line ∧
      line.data[i % 9]? = some c ∧ c.isDigit = true ∧ f.Number = (c.toNat : Int) - 48) ∧
    (∀ r ∈ List.range' 1 9, ∀ c ∈ List.range' 1 9,
      board.Fields.countP (fun f => f.Row = r ∧ f.Column = c) = 1) := by
  obtain ⟨h1, h2, h3⟩ := GenerateBoardFromFile_ok isPrint lines board h
  refine ⟨by rw [h2, length_cellsFrom, h3], ?_, ?_⟩
  · intro i hi
    have hlt : i < (lines.map String.data).flatten.length := by omega
    have hc : (lines.map String.data).flatten[i]? = some ((lines.map String.data).flatten[i]) :=
      List.getElem?_eq_getElem hlt
    have hflat := flatten_getElem?_of_length_nine (lines.map String.data)
      (by
        intro l hl
        obtain ⟨line, hline, rfl⟩ := List.mem_map.1 hl
        exact (h1 line hline).1) i
    rw [hc, List.getElem?_map] at hflat
    cases hline : lines[i / 9]? with
    | none => rw [hline] at hflat; simp at hflat
    | some line =>
      rw [hline] at hflat
      simp only [Option.map_some', Option.some_bind] at hflat
      have hmem : line ∈ lines := List.getElem?_mem hline
      have hdig : ((lines.map String.data).flatten[i]).isDigit = true :=
        (h1 line hmem).2 _ (List.getElem?_mem hflat.symm)
      have hcell : board.Fields[i]? = some (Field.mk (i / 9 + 1) (i % 9 + 1)
          ((((lines.map String.data).flatten[i]).toNat : Int) - 48) []) := by
        rw [h2, cellsFrom_getElem?, hc]
        simp
      exact ⟨_, line, _, hcell, rfl, rfl, rfl, hline ▸ rfl, hflat.symm, hdig, rfl⟩
  · intro r hr c hc
    have hco : board.Fields.map coord = gridCoords := by
      rw [h2, map_coord_cellsFrom, h3, rowMajor_coords]
    have := gridCoords_once r hr c hc
    rw [← hco, List.countP_map] at this
    exact this

set_option maxRecDepth 100000 in
theorem GenerateBoardFromFile_row_major_witness :
    GenerateBoardFromFile (fun _ => true) (.ok puzzleLines) =
      (boardOfNumbers puzzleNumbers, none) ∧
    (boardOfNumbers puzzleNumbers).Fields.length = 81 ∧
    (∀ i, i < 81 → ∃ f line c, (boardOfNumbers puzzleNumbers).Fields[i]? = some f ∧
      f.Row = i / 9 + 1 ∧ f.Column = i % 9 + 1 ∧ f.PossibleNumbers = [] ∧
      puzzleLines[i / 9]? = some line ∧ line.data[i % 9]? = some c ∧ c.isDigit = true ∧
      f.Number = (c.toNat : Int) - 48) ∧
    (∀ r ∈ List.range' 1 9, ∀ c ∈ List.range' 1 9,
      (boardOfNumbers puzzleNumbers).Fields.countP (fun f => f.Row = r ∧ f.Column = c) = 1) :=
  have h : GenerateBoardFromFile (fun _ => true) (.ok puzzleLines) =
      (boardOfNumbers puzzleNumbers, none) := by
    decide
  ⟨h, GenerateBoardFromFile_row_major (fun _ => true) puzzleLines
    (boardOfNumbers puzzleNumbers) h⟩

theorem stuck_congr (l l1 : List Field) (f f1 : Field) (hk : l.map key = l1.map key)
    (hf : key f = key f1) : Stuck l f ↔ Stuck l1 f1 := by
  unfold Stuck
  rw [candidates_congr ⟨l⟩ ⟨l1⟩ f f1 hk (congrArg Prod.fst hf) (congrArg (fun k => k.2.1) hf)]

theorem empties_append (a b : List Field) : empties (a ++ b) = empties a + empties b := by
  simp [empties, List.countP_append]

theorem empties_le_length (a : List Field) : empties a ≤ a.length := by
  unfold empties
  exact List.countP_le_length _

theorem empties_singleton_of_key (f f1 : Field) (hk : key f1 = key f) :
    empties [f1] = empties [f] := by
  have h : f1.Number = f.Number := congrArg (fun k => k.2.2) hk
  simp [empties, List.countP_cons, h]

theorem append_singleton_eq_split (visited pre post : List Field) (x f : Field)
    (h : visited ++ [x] = pre ++ f :: post) :
    (post = [] ∧ pre = visited ∧ f = x) ∨
      ∃ post1, post = post1 ++ [x] ∧ visited = pre ++ f :: post1 := by
  rcases List.eq_nil_or_concat post with rfl | ⟨post1, y, rfl⟩
  · left
    have := List.append_inj' h rfl
    exact ⟨rfl, this.1.symm, by simpa using this.2.symm⟩
  · right
    have h1 : visited ++ [x] = (pre ++ f :: post1) ++ [y] := by
      rw [h]; simp
    have := List.append_inj' h1 rfl
    have hxy : x = y := by simpa using this.2
    exact ⟨post1, by rw [hxy, List.concat_eq_append], this.1⟩

theorem covered_zero (visited rest : List Field) (c : Int) (hc : c ≤ 0) :
    Covered visited rest c := by
  constructor
  · intro pre f post _ _ h; omega
  · intro pre f post _ _ h; omega

/-- One visit that leaves what the queries read of the cell, and adds one to the stall
counter when the cell is empty (then without exactly one candidate), keeps `Covered`. -/
theorem covered_step (visited rest : List Field) (f0 f1 : Field) (c : Int)
    (hk : key f1 = key f0)
    (hstuck : f0.Number = 0 → Stuck (visited ++ f0 :: rest) f0)
    (h : Covered visited (f0 :: rest) c) :
    Covered (visited ++ [f1]) rest (c + (empties [f0] : Int)) := by
  have hkeys : ((visited ++ [f1]) ++ rest).map key = (visited ++ f0 :: rest).map key := by
    simp [hk]
  have he : empties [f1] = empties [f0] := empties_singleton_of_key f0 f1 hk
  have hnum : f1.Number = f0.Number := congrArg (fun k => k.2.2) hk
  obtain ⟨ha, hb⟩ := h
  constructor
  · intro pre f post heq hf0 hlt
    rcases append_singleton_eq_split visited pre post f1 f heq with
      ⟨rfl, rfl, rfl⟩ | ⟨post1, rfl, hv⟩
    · exact (stuck_congr _ _ f f0 hkeys hk).2 (hstuck (hnum ▸ hf0))
    · rw [empties_append, he] at hlt
      refine (stuck_congr _ _ f f hkeys rfl).2 (ha pre f post1 hv hf0 ?_)
      push_cast at hlt
      omega
  · intro pre f post heq hf0 hlt
    rw [empties_append, he] at hlt
    refine (stuck_congr _ _ f f hkeys rfl).2 (hb (f0 :: pre) f post (by rw [heq]; rfl) hf0 ?_)
    push_cast at hlt ⊢
    omega

/-- When more visits than the board has cells found no naked single, no empty cell has
exactly one candidate. -/
theorem covered_all (visited rest : List Field) (c : Int) (h : Covered visited rest c)
    (hlen : ((visited ++ rest).length : Int) < c) :
    ∀ f ∈ visited ++ rest, f.Number = 0 → Stuck (visited ++ rest) f := by
  intro f hf hf0
  rw [List.length_append] at hlen
  rcases List.mem_append.1 hf with hm | hm
  · obtain ⟨pre, post, rfl⟩ := List.append_of_mem hm
    refine h.1 pre f post rfl hf0 ?_
    have := empties_le_length post
    simp only [List.length_append, List.length_cons] at hlen
    push_cast at hlen
    omega
  · obtain ⟨pre, post, rfl⟩ := List.append_of_mem hm
    refine h.2 pre f post rfl hf0 ?_
    have := empties_le_length post
    have := empties_le_length visited
    simp only [List.length_append, List.length_cons] at hlen
    push_cast at hlen ⊢
    omega

theorem covered_restart (all : List Field) (c : Int) (h : Covered all [] c) :
    Covered [] all c := by
  constructor
  · intro pre f post heq; simp at heq
  · intro pre f post heq hf0 hlt
    have := h.1 pre f post heq hf0 (by simpa [empties] using hlt)
    simpa using this

theorem inGrid_assign (field : Field) (cands : List Nat) (h : InGrid field) :
    InGrid (assign field cands) := by
  have hco := coord_assign field cands
  have hr : (assign field cands).Row = field.Row := congrArg Prod.fst hco
  have hc : (assign field cands).Column = field.Column := congrArg Prod.snd hco
  unfold InGrid at h ⊢
  rw [hr, hc]; exact h

/-- A sweep started with the stall counter in 0..100 and with `Covered` keeps both to its
end, and when it returns the stall error no empty cell of the returned board has exactly
one candidate. -/
theorem sweep_covered (rest : List Field) :
    ∀ (visited : List Field) (g : Globals), (∀ f ∈ visited ++ rest, InGrid f) →
      (visited ++ rest).length ≤ 100 →
      0 ≤ g.iterationsSinceLastSolve → g.iterationsSinceLastSolve ≤ 100 →
      Covered visited rest g.iterationsSinceLastSolve →
      (∀ b1 g1, sweep visited rest g = .next b1 g1 →
        (∀ f ∈ b1.Fields, InGrid f) ∧ b1.Fields.length = (visited ++ rest).length ∧
        0 ≤ g1.iterationsSinceLastSolve ∧ g1.iterationsSinceLastSolve ≤ 100 ∧
        Covered b1.Fields [] g1.iterationsSinceLastSolve) ∧
      (∀ b1 e g1, sweep visited rest g = .done (.returned b1 (some e) g1) →
        ∀ f ∈ b1.Fields, f.Number = 0 → Stuck b1.Fields f) := by
  induction rest with
  | nil =>
    intro visited g hgrid _ h0 h100 hcov
    rw [sweep_nil]
    refine ⟨?_, by simp⟩
    intro b1 g1 h
    simp only [Sweep.next.injEq] at h
    obtain ⟨rfl, rfl⟩ := h
    exact ⟨by simpa using hgrid, by simp, h0, h100, hcov⟩
  | cons field rest ih =>
    intro visited g hgrid hlen h0 h100 hcov
    have hfield : field ∈ visited ++ field :: rest := by simp
    have hassoc : ∀ x : Field, (visited ++ [x]) ++ rest = visited ++ x :: rest := by
      intro x; simp
    by_cases hN : field.Number = 0
    · cases hc : possibleNumbers ⟨visited ++ field :: rest⟩ field with
      | none =>
        rw [sweep_fatal _ _ _ _ hN hc]
        exact ⟨by simp, by simp⟩
      | some cands =>
        rw [sweep_empty _ _ _ _ _ hN hc]
        have hgrid1 : ∀ f ∈ (visited ++ [assign field cands]) ++ rest, InGrid f := by
          intro f hf
          rw [hassoc] at hf
          have hold : f ∈ visited ++ field :: rest ∨ f = assign field cands := by
            simp only [List.mem_append, List.mem_cons] at hf ⊢
            tauto
          rcases hold with hold | rfl
          · exact hgrid f hold
          · exact inGrid_assign field cands (hgrid field hfield)
        have hlen1 : ((visited ++ [assign field cands]) ++ rest).length ≤ 100 := by
          simpa using hlen
        have hlen2 : ((visited ++ [assign field cands]) ++ rest).length =
            (visited ++ field :: rest).length := by simp
        rcases length_eq_one_cases cands with ⟨n, rfl⟩ | hnot
        · -- a naked single: the counter restarts at 0
          have hst : stallAfter g.iterationsSinceLastSolve [n] = 0 := rfl
          rw [hst, if_neg (by decide)]
          obtain ⟨ih1, ih2⟩ := ih (visited ++ [assign field [n]])
            { g with iterationsSinceLastSolve := 0 } hgrid1 hlen1 (le_refl _)
            (show (0 : Int) ≤ 100 by decide)
            (covered_zero _ _ _ (le_refl _))
          refine ⟨?_, ih2⟩
          intro b1 g1 h
          have := ih1 b1 g1 h
          rw [hlen2] at this
          exact this
        · -- no naked single: the counter goes up by one
          have hst : stallAfter g.iterationsSinceLastSolve cands =
              g.iterationsSinceLastSolve + 1 := by
            rw [stallAfter_not_single _ _ hnot]
            unfold wrapInt
            omega
          have hcand := possibleNumbers_eq_candidates ⟨visited ++ field :: rest⟩ field
            (hgrid field hfield) (uintCoords_of_inGrid _ hgrid)
          rw [hc] at hcand
          simp only [Option.some.injEq] at hcand
          have hstuck : Stuck (visited ++ field :: rest) field := by
            unfold Stuck
            rw [← hcand]; exact hnot
          have he : (empties [field] : Int) = 1 := by
            simp [empties, List.countP_cons, hN]
          have hcov1 := covered_step visited rest field (assign field cands)
            g.iterationsSinceLastSolve (key_assign_not_single _ _ hnot) (fun _ => hstuck) hcov
          rw [he] at hcov1
          rw [hst]
          by_cases hgt : g.iterationsSinceLastSolve + 1 > maxIterationsSinceLastSolve
          · rw [if_pos hgt]
            refine ⟨by simp, ?_⟩
            intro b1 e g1 h
            simp only [Sweep.done.injEq, Outcome.returned.injEq] at h
            obtain ⟨rfl, -, -⟩ := h
            have hall := covered_all _ _ _ hcov1 (by
              unfold maxIterationsSinceLastSolve at hgt
              have := hlen1
              omega)
            rw [hassoc] at hall
            exact hall
          · rw [if_neg hgt]
            unfold maxIterationsSinceLastSolve at hgt
            obtain ⟨ih1, ih2⟩ := ih (visited ++ [assign field cands])
              { g with iterationsSinceLastSolve := g.iterationsSinceLastSolve + 1 } hgrid1 hlen1
              (by simp only []; omega) (by simp only []; omega) hcov1
            refine ⟨?_, ih2⟩
            intro b1 g1 h
            have := ih1 b1 g1 h
            rw [hlen2] at this
            exact this
    · rw [sweep_filled _ _ _ _ hN]
      by_cases h81 : g.solvedNumberCount + 1 = 81
      · rw [if_pos h81]
        exact ⟨by simp, by simp⟩
      · rw [if_neg h81]
        have he : (empties [field] : Int) = 0 := by
          simp [empties, List.countP_cons, hN]
        have hcov1 := covered_step visited rest field field g.iterationsSinceLastSolve rfl
          (fun h => absurd h hN) hcov
        rw [he, Int.add_zero] at hcov1
        obtain ⟨ih1, ih2⟩ := ih (visited ++ [field])
          { g with solvedNumberCount := g.solvedNumberCount + 1 }
          (by rw [hassoc]; exact hgrid) (by rw [hassoc]; exact hlen) h0 h100 hcov1
        refine ⟨?_, ih2⟩
        intro b1 g1 h
        have := ih1 b1 g1 h
        rw [hassoc] at this
        exact this

theorem SolveFuel_covered (fuel : Nat) :
    ∀ (g : Globals) (board : Board), (∀ f ∈ board.Fields, InGrid f) →
      board.Fields.length ≤ 100 →
      0 ≤ g.iterationsSinceLastSolve → g.iterationsSinceLastSolve ≤ 100 →
      Covered [] board.Fields g.iterationsSinceLastSolve →
      ∀ b1 e g1, SolveFuel fuel g board = some (.returned b1 (some e) g1) →
        ∀ f ∈ b1.Fields, f.Number = 0 → Stuck b1.Fields f := by
  induction fuel with
  | zero => intro g board _ _ _ _ _ b1 e g1 h; simp [SolveFuel] at h
  | succ fuel ih =>
    intro g board hgrid hlen h0 h100 hcov b1 e g1 h
    obtain ⟨p1, p2⟩ := sweep_covered board.Fields [] { g with solvedNumberCount := 0 }
      (by simpa using hgrid) (by simpa using hlen) h0 h100 hcov
    rw [SolveFuel] at h
    cases hs : sweep [] board.Fields { g with solvedNumberCount := 0 } with
    | next b2 g2 =>
      rw [hs] at h
      obtain ⟨q1, q2, q3, q4, q5⟩ := p1 b2 g2 hs
      exact ih g2 b2 q1 (by rw [q2]; simpa using hlen) q3 q4 (covered_restart _ _ q5) b1 e g1 h
    | done out =>
      rw [hs] at h
      simp only [Option.some.injEq] at h
      subst h
      exact p2 b1 e g1 hs

/-- C16: when `Solve`, started on a board of 81 cells of the grid with the stall counter at
its initial value 0, returns the error "too many iterations since last solve", no empty
cell of the returned board has exactly one candidate digit (a digit 1..9 that no cell of
its row, column or box holds). -/
theorem Solve_unsolvable_stuck (board : Board) (solved : Int) (h81 : board.Fields.length = 81)
    (hgrid : ∀ f ∈ board.Fields, InGrid f) (fuel : Nat) (b1 : Board) (g1 : Globals)
    (h : SolveFuel fuel { iterationsSinceLastSolve := 0, solvedNumberCount := solved } board =
      some (.returned b1 (some tooManyIterations) g1)) :
    ∀ f ∈ b1.Fields, f.Number = 0 → (candidates b1 f).length ≠ 1 :=
  SolveFuel_covered fuel _ board hgrid (by omega) (le_refl _) (show (0 : Int) ≤ 100 by decide)
    (covered_zero _ _ _ (le_refl _)) b1 _ g1 h

theorem framed_self (f : Field) : Framed f f :=
  ⟨rfl, rfl, fun _ => rfl, fun h => Or.inl h⟩

theorem framed_assign (a x : Field) (board : Board) (cands : List Nat) (hN : x.Number = 0)
    (hc : possibleNumbers board x = some cands) (h : Framed a x) : Framed a (assign x cands) := by
  obtain ⟨h1, h2, h3, h4⟩ := h
  have hco := coord_assign x cands
  have hr : (assign x cands).Row = x.Row := congrArg Prod.fst hco
  have hcl : (assign x cands).Column = x.Column := congrArg Prod.snd hco
  have ha : a.Number = 0 := by
    by_contra hne
    rw [h3 hne] at hN
    exact hne hN
  refine ⟨hr.trans h1, hcl.trans h2, fun hne => absurd ha hne, fun _ => ?_⟩
  rcases length_eq_one_cases cands with ⟨n, rfl⟩ | hnot
  · right
    have hn := possibleNumbers_digit board x [n] hc n (by simp)
    rw [assign_single]
    simp only []
    rw [toInt_of_lt n (by omega)]
    omega
  · left
    rw [assign_not_single _ _ hnot]
    exact hN

/-- C17: on a board with one cell per place of the grid in which no digit 1..9 occurs twice
in a row, a column or a box, `Solve` returns, and the board it returns, with success or with
an error, has no digit 1..9 twice in a row, a column or a box either. -/
theorem Solve_preserves_consistent (board : Board) (g : Globals) (hshape : WellShaped board)
    (hcons : Consistent board) :
    (∃ fuel b1 e g1, SolveFuel fuel g board = some (.returned b1 e g1)) ∧
      ∀ fuel b1 e g1, SolveFuel fuel g board = some (.returned b1 e g1) → Consistent b1 := by
  obtain ⟨h81, hgrid, -⟩ := hshape
  constructor
  · obtain ⟨fuel, b1, g1, h | h⟩ := SolveFuel_returns board g h81 hgrid
    · exact ⟨fuel, b1, _, g1, h⟩
    · exact ⟨fuel, b1, _, g1, h⟩
  · intro fuel b1 e g1 hs
    have hinv := SolveFuel_preserves
      (fun l => l.map coord = board.Fields.map coord ∧ Consistent ⟨l⟩)
      ?_ fuel g board ⟨rfl, hcons⟩ b1 e g1 hs
    · exact hinv.2
    · rintro visited field rest cands hN hc ⟨hco, hcs⟩
      exact ⟨(map_coord_assign visited rest field cands).trans hco,
        consistent_assign visited rest field cands (inGrid_of_map_coord _ _ hco hgrid) hN hc hcs⟩

set_option maxRecDepth 1000000 in
theorem Solve_preserves_consistent_witness :
    (WellShaped (boardOfNumbers puzzleNumbers) ∧ Consistent (boardOfNumbers puzzleNumbers)) ∧
    SolveFuel 3 ⟨0, 0⟩ (boardOfNumbers puzzleNumbers) =
      some (.returned (boardOfNumbers solvedNumbers) none ⟨0, 81⟩) ∧
    Consistent (boardOfNumbers solvedNumbers) :=
  ⟨⟨puzzle_wellShaped, puzzle_consistent⟩, puzzle_run,
    (Solve_preserves_consistent (boardOfNumbers puzzleNumbers) ⟨0, 0⟩ puzzle_wellShaped
      puzzle_consistent).2 3 _ _ _ puzzle_run⟩

/-- C18: whenever `Solve` returns, with success or with an error, the returned board has the
cells of the input in the same number and order, every cell with the Row and the Column it
had; a cell that held a non-zero Number is returned as it was, in every field; a cell that
was empty is returned empty or with a Number in 1..9. -/
theorem Solve_frame (fuel : Nat) (g : Globals) (board b1 : Board) (e : Option String)
    (g1 : Globals) (h : SolveFuel fuel g board = some (.returned b1 e g1)) :
    List.Forall₂ Framed board.Fields b1.Fields ∧ b1.Fields.length = board.Fields.length := by
  have hf : List.Forall₂ Framed board.Fields b1.Fields := by
    refine SolveFuel_preserves (fun l => List.Forall₂ Framed board.Fields l) ?_ fuel g board
      (forall₂_self framed_self _) b1 e g1 h
    intro visited field rest cands hN hc hP
    exact forall₂_replace visited _ field _ rest hP
      (fun a ha => framed_assign a field _ cands hN hc ha)
  exact ⟨hf, hf.length_eq.symm⟩

set_option maxRecDepth 1000000 in
theorem Solve_frame_witness :
    SolveFuel 3 ⟨0, 0⟩ (boardOfNumbers puzzleNumbers) =
      some (.returned (boardOfNumbers solvedNumbers) none ⟨0, 81⟩) ∧
    List.Forall₂ Framed (boardOfNumbers puzzleNumbers).Fields
      (boardOfNumbers solvedNumbers).Fields ∧
    (boardOfNumbers solvedNumbers).Fields.length = (boardOfNumbers puzzleNumbers).Fields.length :=
  ⟨puzzle_run, Solve_frame 3 ⟨0, 0⟩ _ _ _ _ puzzle_run⟩

set_option maxRecDepth 1000000 in
theorem Solve_unsolvable_stuck_witness :
    ((boardOfNumbers deadNumbers).Fields.length = 81 ∧
      (∀ f ∈ (boardOfNumbers deadNumbers).Fields, InGrid f) ∧
      SolveFuel 101 ⟨0, 0⟩ (boardOfNumbers deadNumbers) =
        some (.returned
          ⟨{ Row := 1, Column := 1, Number := 0, PossibleNumbers := [] } ::
            (boardOfNumbers deadNumbers).Fields.drop 1⟩
          (some tooManyIterations) ⟨101, 0⟩)) ∧
    ∀ f ∈ ({ Row := 1, Column := 1, Number := 0, PossibleNumbers := [] } ::
        (boardOfNumbers deadNumbers).Fields.drop 1 : List Field),
      f.Number = 0 →
        (candidates ⟨{ Row := 1, Column := 1, Number := 0, PossibleNumbers := [] } ::
          (boardOfNumbers deadNumbers).Fields.drop 1⟩ f).length ≠ 1 :=
  ⟨⟨by decide, by decide, dead_run⟩,
    Solve_unsolvable_stuck (boardOfNumbers deadNumbers) 0 (by decide) (by decide) 101 _ _
      dead_run⟩

theorem lineLoop_congr (p q : Char → Bool) (chars : List Char) :
    ∀ (st st1 : GenState), lineLoop p chars st = (st1, none) →
      lineLoop q chars st = (st1, none) := by
  induction chars with
  | nil => intro st st1 h; simpa [lineLoop] using h
  | cons c rest ih =>
    intro st st1 h
    by_cases hd : c.isDigit = true
    · rw [lineLoop, parseInt_digit p c hd] at h
      rw [lineLoop, parseInt_digit q c hd]
      exact ih _ _ h
    · rw [lineLoop, parseInt_not_digit p c hd] at h
      simp at h

theorem scanLoop_congr (p q : Char → Bool) (lines : List String) :
    ∀ (st st1 : GenState), scanLoop p lines st = (st1, none) →
      scanLoop q lines st = (st1, none) := by
  induction lines with
  | nil => intro st st1 h; simpa [scanLoop] using h
  | cons line rest ih =>
    intro st st1 h
    rw [scanLoop] at h ⊢
    by_cases hlen : line.utf8ByteSize ≠ 9
    · rw [if_pos hlen] at h
      simp at h
    · rw [if_neg hlen] at h ⊢
      cases hl : lineLoop p line.data st with
      | mk st2 e =>
        rw [hl] at h
        cases e with
        | some err => simp at h
        | none =>
          rw [lineLoop_congr p q _ _ _ hl]
          exact ih _ _ h

/-- A success of `GenerateBoardFromFile` does not depend on the table `isPrint`. -/
theorem GenerateBoardFromFile_congr (p q : Char → Bool) (lines : List String) (board : Board)
    (h : GenerateBoardFromFile p (.ok lines) = (board, none)) :
    GenerateBoardFromFile q (.ok lines) = (board, none) := by
  simp only [GenerateBoardFromFile] at h ⊢
  cases hs : scanLoop p lines { board := ⟨[]⟩, row := 1, col := 0 } with
  | mk st e =>
    rw [hs] at h
    cases e with
    | some err => simp at h
    | none =>
      rw [scanLoop_congr p q _ _ _ hs]
      exact h

theorem scannerLines_stop (pre : List String) (long : String) (post : List String)
    (hpre : ∀ l ∈ pre, l.utf8ByteSize < maxScanTokenSize)
    (hlong : maxScanTokenSize ≤ long.utf8ByteSize) :
    scannerLines (pre ++ long :: post) = pre.map dropCR := by
  induction pre with
  | nil => simp [scannerLines, hlong]
  | cons l pre ih =>
    have h1 : ¬ maxScanTokenSize ≤ l.utf8ByteSize := by
      have := hpre l (by simp)
      omega
    rw [List.cons_append, scannerLines, if_neg h1, ih (fun x hx => hpre x (by simp [hx]))]
    rfl

theorem longLine_length : longLine.length = 70000 := by
  show (List.replicate 70000 (Char.ofNat 49)).length = 70000
  exact List.length_replicate _ _

theorem longLine_bytes : longLine.utf8ByteSize = 70000 := by
  rw [utf8ByteSize_digits longLine]
  · exact longLine_length
  · intro c hc
    have : c = Char.ofNat 49 := List.eq_of_mem_replicate hc
    rw [this]
    decide

set_option maxRecDepth 100000 in
theorem puzzleLines_generate :
    GenerateBoardFromFile (fun _ => true) (.ok puzzleLines) =
      (boardOfNumbers puzzleNumbers, none) := by
  decide

theorem puzzleLines_short : ∀ l ∈ puzzleLines, l.utf8ByteSize < maxScanTokenSize := by
  decide

theorem puzzleLines_dropCR : puzzleLines.map dropCR = puzzleLines := by
  decide

theorem longLine_too_long : maxScanTokenSize ≤ longLine.utf8ByteSize := by
  rw [longLine_bytes]
  decide

theorem longFile_eq : longFile = puzzleLines ++ [longLine] := rfl

theorem scannerLines_longFile : scannerLines longFile = puzzleLines :=
  (congrArg scannerLines longFile_eq).trans
    ((scannerLines_stop puzzleLines longLine [] puzzleLines_short longLine_too_long).trans
      puzzleLines_dropCR)

theorem longFile_lengths :
    longFile.map String.length = puzzleLines.map String.length ++ [70000] := by
  rw [longFile_eq, List.map_append, List.map_singleton, longLine_length]

theorem longFile_sum : (puzzleLines.map String.length ++ [70000]).sum = 70081 := by
  decide

theorem readLines_longFile : readLines (.ok longFile) = .ok puzzleLines :=
  congrArg Except.ok scannerLines_longFile

theorem puzzleLines_generate_any (isPrint : Char → Bool) :
    GenerateBoardFromFile isPrint (.ok puzzleLines) = (boardOfNumbers puzzleNumbers, none) :=
  GenerateBoardFromFile_congr _ isPrint _ _ puzzleLines_generate

theorem length_dropCR_le (line : String) : (dropCR line).length ≤ line.length := by
  unfold dropCR
  split
  · show line.data.dropLast.length ≤ line.data.length
    rw [List.length_dropLast]
    omega
  · exact Nat.le_refl _

theorem scannerLines_sum_le (raw : List String) :
    ((scannerLines raw).map String.length).sum ≤ (raw.map String.length).sum := by
  induction raw with
  | nil => simp [scannerLines]
  | cons l rest ih =>
    rw [scannerLines]
    split
    · simp
    · have := length_dropCR_le l
      simp only [List.map_cons, List.sum_cons]
      omega

/-- A file whose lines hold fewer than 81 characters is rejected: whatever the scanner
yields of it, `GenerateBoardFromFile` returns an error and `main` ends in `log.Fatal`
before `Solve` runs. -/
theorem GenerateBoardFromFile_rejects_short_file (isPrint : Char → Bool) (raw : List String)
    (h : (raw.map String.length).sum < 81) :
    ∃ board err, GenerateBoardFromFile isPrint (readLines (.ok raw)) = (board, some err) ∧
      ∀ fuel, mainFuel isPrint fuel (readLines (.ok raw)) = some (.fatal err) := by
  have hle := scannerLines_sum_le raw
  obtain ⟨-, h2, h3⟩ := GenerateBoardFromFile_cell_count isPrint (readLines (.ok raw))
  obtain ⟨board, err, hg⟩ := h2 (scannerLines raw) rfl (by omega)
  exact ⟨board, err, hg, h3 board err hg⟩

/-- C14 fails on the code: the file `longFile` supplies 70081 digits, nine lines of nine and
a tenth line of 70000.  The scanner stops at the tenth line, which is too long for its
buffer, and the error it keeps is never read: `GenerateBoardFromFile` sees the first nine
lines only, returns the board of 81 cells without an error, and `main` hands the board to
`Solve` and prints the solved board. -/
theorem GenerateBoardFromFile_accepts_long_file (isPrint : Char → Bool) :
    (longFile.map String.length).sum = 70081 ∧
    readLines (.ok longFile) = .ok puzzleLines ∧
    GenerateBoardFromFile isPrint (readLines (.ok longFile)) =
      (boardOfNumbers puzzleNumbers, none) ∧
    mainFuel isPrint 3 (readLines (.ok longFile)) =
      some (.printed (boardOfNumbers solvedNumbers)) := by
  refine ⟨?_, readLines_longFile, ?_, ?_⟩
  · rw [longFile_lengths]
    exact longFile_sum
  · rw [readLines_longFile]
    exact puzzleLines_generate_any isPrint
  · rw [readLines_longFile, mainFuel, puzzleLines_generate_any isPrint]
    simp only []
    rw [puzzle_run]

end Sudoku
